import Mathlib

/-!
Verification development for the `.order` DSL core of the SortScript
repository: the rule-evaluation engine in `src/core/fileOrderProcessor.ts`
(class `FileOrderProcessor`), its data model in `src/core/structure.ts`, and
the parse entry point `parseOrderFile` in `src/core/parser.ts`.

Modelling conventions:
* Machine strings are Lean `String`s; character-level work is done on
  `String.data` (`List Char`) so that everything kernel-evaluates.
* JS `RegExp` objects are represented by their source string; their observable
  behaviour (`test`, `match` with capture group 1) is supplied by an `Env` of
  functions, instantiated per concrete regex in examples.
* The third-party `minimatch` library (always invoked with
  `{ matchBase: true }`) is modelled by `minimatch` below for the pattern
  forms the repository uses: `/`-separated segments, `*`, `?`, `**`, literal
  text, and the leading-dot rule.  `localeCompare` and JS default array sort
  on strings are modelled as code-point lexicographic comparison.
* The node `path.join`, `path.relative("/", ·)`, `path.extname` and
  `path.basename` functions are modelled for the argument shapes the
  processor uses (no `..` normalisation).
* JS object identity is modelled by numeric `id` fields on files and
  directories; the in-place mutation of `File.state` is modelled by threading
  an explicit store `Nat → FileState` through the engine.
-/

namespace SortScript

/-! ## Character-level string helpers -/
def ofChars (cs : List Char) : String := String.mk cs

/-- Split a character list on `'/'`; always returns at least one segment. -/
def splitSegs (cs : List Char) : List (List Char) :=
  cs.foldr
    (fun c acc =>
      match acc with
      | seg :: rest => if c = '/' then [] :: seg :: rest else (c :: seg) :: rest
      | [] => [[c]])
    [[]]

/-- Code-point lexicographic comparison, the model of `localeCompare` and of
the JS default string sort. -/
def cmpChars : List Char → List Char → Int
  | [], [] => 0
  | [], _ :: _ => -1
  | _ :: _, [] => 1
  | a :: as, b :: bs =>
    if a.val < b.val then -1 else if b.val < a.val then 1 else cmpChars as bs

def strCmp (a b : String) : Int := cmpChars a.data b.data

/-! ## Glob matching (model of `minimatch` with `matchBase: true`) -/
/-- Fueled segment-wise glob core: `*` matches any run, `?` one character,
other characters literally.  Every recursive call shortens the combined
input, so fuel beyond the combined length never runs out. -/
def segMatchCoreF : Nat → List Char → List Char → Bool
  | 0, _, _ => false
  | fuel + 1, p, t =>
    match p, t with
    | [], [] => true
    | [], _ :: _ => false
    | '*' :: ps, [] => segMatchCoreF fuel ps []
    | '*' :: ps, c :: cs =>
      segMatchCoreF fuel ps (c :: cs) || segMatchCoreF fuel ('*' :: ps) cs
    | '?' :: ps, _ :: cs => segMatchCoreF fuel ps cs
    | '?' :: _, [] => false
    | q :: ps, c :: cs => q = c && segMatchCoreF fuel ps cs
    | _ :: _, [] => false

def segMatchCore (p t : List Char) : Bool :=
  segMatchCoreF (p.length + t.length + 1) p t

/-- Glob match of one path segment, with the minimatch leading-dot rule: a
segment starting with `.` is only matched by a pattern that also starts
with a literal `.`. -/
def segMatch (p t : List Char) : Bool :=
  match t with
  | '.' :: _ =>
    match p with
    | '.' :: _ => segMatchCore p t
    | _ => false
  | _ => segMatchCore p t

/-- Fueled matching of a `/`-split pattern against a `/`-split path; `**`
crosses segment boundaries. -/
def globSegsF : Nat → List (List Char) → List (List Char) → Bool
  | 0, _, _ => false
  | fuel + 1, ps0, ts =>
    match ps0, ts with
    | [], [] => true
    | [], _ :: _ => false
    | p :: ps, ts =>
      if p = ['*', '*'] then
        globSegsF fuel ps ts ||
          (match ts with
           | [] => false
           | _ :: ts2 => globSegsF fuel (p :: ps) ts2)
      else
        match ts with
        | [] => false
        | t :: ts2 => segMatch p t && globSegsF fuel ps ts2

def globSegs (ps ts : List (List Char)) : Bool :=
  globSegsF (ps.length + ts.length + 1) ps ts

/-- Model of `minimatch(path, pattern, { matchBase: true })`: a pattern
without `/` is matched against the basename of the path. -/
def minimatch (path pattern : String) : Bool :=
  if pattern.data.contains '/' then
    globSegs (splitSegs pattern.data) (splitSegs path.data)
  else
    match (splitSegs path.data).getLast? with
    | some base => segMatch pattern.data base
    | none => segMatch pattern.data []

/-! ## Path helpers (models of the injected `Path` collaborator, node `path`) -/
/-- Model of `path.join(a, b)`: empty components are dropped; an all-empty
join is `"."`. -/
def pathJoin (a b : String) : String :=
  if a = "" ∧ b = "" then "."
  else if a = "" then b
  else if b = "" then a
  else a ++ "/" ++ b

/-- Model of `path.relative("/", p)` for the absolute snapshot paths the
engine uses: strips one leading slash. -/
def pathRelRoot (p : String) : String :=
  match p.data with
  | '/' :: rest => ofChars rest
  | _ => p

/-- Basename (text after the last `/`). -/
def lastSeg (cs : List Char) : List Char := ((splitSegs cs).getLast?).getD []

/-- Index of the last `.` of a character list. -/
def lastDotIdx (b : List Char) : Option Nat :=
  match b.reverse.findIdx? (· = '.') with
  | none => none
  | some j => some (b.length - 1 - j)

/-- Model of `path.extname`: extension of the basename including the dot; a
dot in first position (dotfile) yields `""`. -/
def extnameL (cs : List Char) : List Char :=
  let b := lastSeg cs
  match lastDotIdx b with
  | none => []
  | some 0 => []
  | some i => b.drop i

def extnameS (s : String) : String := ofChars (extnameL s.data)

/-- Model of `path.basename(p, ext)`: basename, with a strict-suffix `ext`
stripped. -/
def basenameL (cs ext : List Char) : List Char :=
  let b := lastSeg cs
  if ext ≠ [] ∧ b.length > ext.length ∧ b.drop (b.length - ext.length) = ext then
    b.take (b.length - ext.length)
  else b

/-- The `basename` mode of `getGroupKey`: repeatedly strip extensions until
none remain (`a.test.js` becomes `a`).  The fuel bounds the number of
iterations; each strip removes at least one character. -/
def stripExtsFuel : Nat → List Char → List Char
  | 0, b => b
  | n + 1, b =>
    let e := extnameL b
    if e = [] then b else stripExtsFuel n (basenameL b e)

def stripAllExts (s : String) : String :=
  ofChars (stripExtsFuel (s.data.length + 1) s.data)

/-! ## Natural comparison (`naturalCompare`) -/
/-- Maximal runs of digit / non-digit characters, the model of
`a.match(/(\d+)|(\D+)/g)`. -/
def runs : List Char → List (List Char)
  | [] => []
  | c :: cs =>
    match runs cs with
    | [] => [[c]]
    | (d :: ds) :: rest =>
      if c.isDigit = d.isDigit then (c :: d :: ds) :: rest
      else [c] :: (d :: ds) :: rest
    | [] :: rest => [c] :: [] :: rest

def isDigitRun : List Char → Bool
  | [] => false
  | c :: _ => c.isDigit

/-- Numeric value of a digit run (model of `parseInt`). -/
def digitsVal (cs : List Char) : Nat :=
  cs.foldl (fun n c => n * 10 + (c.toNat - '0'.toNat)) 0

/-- Run-by-run comparison loop of `naturalCompare`: first non-zero
comparison, `none` when the shorter run list is exhausted. -/
def natLoop : List (List Char) → List (List Char) → Option Int
  | a :: as, b :: bs =>
    if isDigitRun a ∧ isDigitRun b then
      if digitsVal a ≠ digitsVal b then some ((digitsVal a : Int) - digitsVal b)
      else natLoop as bs
    else
      if a ≠ b then some (cmpChars a b) else natLoop as bs
  | _, _ => none

/-- `naturalCompare`: digit runs compare numerically, other runs
lexicographically; the residual tie goes to the shorter name. -/
def naturalCompare (a b : String) : Int :=
  (natLoop (runs a.data) (runs b.data)).getD ((a.data.length : Int) - b.data.length)

/-! ## Data model (`src/core/structure.ts`) -/
inductive FileState where
  | Normal
  | Disallowed
deriving DecidableEq, Repr

/-- `FileSystemItem` tagged union.  `id` models JS object identity for files
and directories; `Group` is synthesised by the engine and has no identity of
its own.  `File.state` lives in the explicit store threaded through the
engine, mirroring the in-place `file.state = …` writes. -/
inductive FSItem where
  | file (id : Nat) (fname : String) (fpath : String)
  | dir (id : Nat) (dname : String) (dpath : String) (children : List FSItem)
  | group (gname : String) (children : List FSItem)

mutual

def FSItem.decEq : (a b : FSItem) → Decidable (a = b)
  | .file i n p, .file j m q =>
    if h1 : i = j then
      if h2 : n = m then
        if h3 : p = q then isTrue (by rw [h1, h2, h3])
        else isFalse (fun he => by cases he; exact h3 rfl)
      else isFalse (fun he => by cases he; exact h2 rfl)
    else isFalse (fun he => by cases he; exact h1 rfl)
  | .dir i n p cs, .dir j m q ds =>
    if h1 : i = j then
      if h2 : n = m then
        if h3 : p = q then
          match FSItem.decEqList cs ds with
          | isTrue h4 => isTrue (by rw [h1, h2, h3, h4])
          | isFalse h4 => isFalse (fun he => by cases he; exact h4 rfl)
        else isFalse (fun he => by cases he; exact h3 rfl)
      else isFalse (fun he => by cases he; exact h2 rfl)
    else isFalse (fun he => by cases he; exact h1 rfl)
  | .group n cs, .group m ds =>
    if h2 : n = m then
      match FSItem.decEqList cs ds with
      | isTrue h4 => isTrue (by rw [h2, h4])
      | isFalse h4 => isFalse (fun he => by cases he; exact h4 rfl)
    else isFalse (fun he => by cases he; exact h2 rfl)
  | .file .., .dir .. => isFalse (fun he => FSItem.noConfusion he)
  | .file .., .group .. => isFalse (fun he => FSItem.noConfusion he)
  | .dir .., .file .. => isFalse (fun he => FSItem.noConfusion he)
  | .dir .., .group .. => isFalse (fun he => FSItem.noConfusion he)
  | .group .., .file .. => isFalse (fun he => FSItem.noConfusion he)
  | .group .., .dir .. => isFalse (fun he => FSItem.noConfusion he)

def FSItem.decEqList : (a b : List FSItem) → Decidable (a = b)
  | [], [] => isTrue rfl
  | [], _ :: _ => isFalse (fun he => List.noConfusion he)
  | _ :: _, [] => isFalse (fun he => List.noConfusion he)
  | x :: xs, y :: ys =>
    match FSItem.decEq x y, FSItem.decEqList xs ys with
    | isTrue h1, isTrue h2 => isTrue (by rw [h1, h2])
    | isFalse h1, _ => isFalse (fun he => by cases he; exact h1 rfl)
    | _, isFalse h2 => isFalse (fun he => by cases he; exact h2 rfl)

end

instance : DecidableEq FSItem := FSItem.decEq

def FSItem.name : FSItem → String
  | .file _ n _ => n
  | .dir _ n _ _ => n
  | .group n _ => n

/-- The `.path` property; `Group`s keep the `FileSystemItem` default `""`. -/
def FSItem.pathOf : FSItem → String
  | .file _ _ p => p
  | .dir _ _ p _ => p
  | .group _ _ => ""

def FSItem.isDirI : FSItem → Bool
  | .dir .. => true
  | _ => false

def FSItem.isGroupI : FSItem → Bool
  | .group .. => true
  | _ => false

def FSItem.isFileI : FSItem → Bool
  | .file .. => true
  | _ => false

/-- `stats` record of the injected `Fs.statSync`. -/
structure FileStat where
  size : Int
  mtimeMs : Int
  birthtimeMs : Int
deriving Repr

/-- Ambient behaviour of the JS runtime pieces the engine consumes: regex
evaluation (`RegExp.test`; `String.match` restricted to capture group 1,
`none` meaning no match) and the injected stat lookup (`none` meaning
`statSync` threw). -/
structure Env where
  regexTest : String → String → Bool
  regexCap1 : String → String → Option String
  stat : String → Option FileStat

/-- File-state store, modelling the mutable `state` field by object id. -/
def updState (σ : Nat → FileState) (id : Nat) (v : FileState) : Nat → FileState :=
  fun i => if i = id then v else σ i

/-! ## DSL abstract syntax (`src/core/parser.ts` interfaces) -/
mutual

/-- Directive node: name plus ordered arguments. -/
inductive Directive where
  | mk (dname : String) (dargs : List DirArg)

/-- Directive argument: string or regex literal (regex literals keep their
surrounding slashes, exactly as `visitDirectiveArg` returns the raw token
image), capture-group reference, or nested directive. -/
inductive DirArg where
  | str (s : String)
  | capture (ref : String)
  | dirA (d : Directive)

end

def Directive.name : Directive → String
  | .mk n _ => n

def Directive.args : Directive → List DirArg
  | .mk _ a => a

/-- Statement tagged union, as consumed by `FileOrderProcessor` (the revision
with `blockDirectives` on path blocks and the `groupBlock` variant). -/
inductive Statement where
  | filePattern (pattern : String) (directives : List Directive)
  | pathBlock (pattern : String) (blockDirectives : List Directive) (block : List Statement)
  | directiveS (d : Directive)
  | groupBlock (gname : String) (block : List Statement)

/-- An `OrderFile` is its statement list. -/
def OrderFile := List Statement

/-! ## Rule compiler (`processStatements`) -/
/-- Compiled rule pattern: glob string or regex (source text). -/
inductive RulePattern where
  | glob (p : String)
  | regex (src : String)
deriving DecidableEq

/-- Value of a compiled `group_by`. -/
inductive GroupByVal where
  | str (s : String)
  | regex (src : String)
deriving DecidableEq

/-- Engine-internal compiled `Rule`. -/
structure Rule where
  pattern : RulePattern
  directives : List Directive
  isRequired : Bool := false
  tiebreakers : Option (List String) := none
  groupName : Option String := none
  groupBy : Option GroupByVal := none
  isHidden : Bool := false
  allowIf : Option String := none
  disallowIf : Option String := none

/-- Result record of `processStatements`. -/
structure ScopeResult where
  rules : List Rule
  tiebreakers : List String
  explicitOrder : List String
  typeOrder : List String

/-- A regex literal in the sense of `createPattern` and the directive
compiler: starts and ends with a slash (the single character `"/"`
qualifies, as in the JS `startsWith`/`endsWith` test). -/
def isRegexLit (s : String) : Bool :=
  s.data.head? = some '/' && s.data.getLast? = some '/'

/-- Text between the surrounding slashes of a regex literal. -/
def regexInner (s : String) : String := ofChars s.data.tail.dropLast

/-- Strip one leading `@`, as `parseTiebreakers` does per argument. -/
def stripAt (s : String) : String :=
  match s.data with
  | '@' :: rest => ofChars rest
  | _ => s

/-- Model of `parseTiebreakers`: nested directives contribute their name,
strings themselves; a leading `@` is stripped.  A capture-group argument
would crash the JS (`startsWith` on a non-string); it is mapped to its
reference text here and never exercised. -/
def parseTiebreakers (args : List DirArg) : List String :=
  args.map fun a =>
    let v : String :=
      match a with
      | .dirA d => d.name
      | .str s => s
      | .capture r => r
    stripAt v

/-- Model of `createPattern`: regex literals become regexes, everything else
is joined onto the base path as a glob. -/
def createPattern (pattern basePath : String) : RulePattern :=
  if isRegexLit pattern then .regex (regexInner pattern)
  else .glob (pathJoin basePath pattern)

def isGlobPattern (p : String) : Bool :=
  p.data.contains '*' || p.data.contains '?' || p.data.contains '['

/-- Effect of one directive on a rule under compilation (the `switch` in
`processStatements`).  Branches the JS would crash on (non-string arguments
to `allow_if`/`disallow_if`, object arguments to `group`) are no-ops here
and are never exercised by the grammar output the engine sees. -/
def applyDirective (r : Rule) (d : Directive) : Rule :=
  match d.name with
  | "required" => { r with isRequired := true }
  | "tiebreaker" => { r with tiebreakers := some (parseTiebreakers d.args) }
  | "group" =>
    match d.args.head? with
    | some (.str s) => if s = "" then r else { r with groupName := some s }
    | _ => r
  | "group_by" =>
    match d.args.head? with
    | some (.str s) =>
      if s = "" then r
      else if isRegexLit s then { r with groupBy := some (.regex (regexInner s)) }
      else { r with groupBy := some (.str (stripAt s)) }
    | some (.dirA dd) => { r with groupBy := some (.str dd.name) }
    | _ => r
  | "hidden" => { r with isHidden := true }
  | "allow_if" =>
    match d.args.head? with
    | some (.str s) =>
      if s = "" then r
      else if isRegexLit s then { r with allowIf := some (regexInner s) } else r
    | _ => r
  | "disallow_if" =>
    match d.args.head? with
    | some (.str s) =>
      if s = "" then r
      else if isRegexLit s then { r with disallowIf := some (regexInner s) } else r
    | _ => r
  | _ => r

/-- Compile one `FilePattern` statement into a `Rule`. -/
def compileRule (basePath pattern : String) (dirs : List Directive) : Rule :=
  dirs.foldl applyDirective { pattern := createPattern pattern basePath, directives := dirs }

def emptyScope : ScopeResult := ⟨[], [], [], []⟩

/-- Default applied at the end of every `processStatements` call. -/
def finalizeScope (r : ScopeResult) : ScopeResult :=
  if r.tiebreakers = [] then { r with tiebreakers := ["alphabetical"] } else r

mutual

/-- Effect of a single statement on the scope under compilation.
Empty-pattern path blocks (`@root`) merge the recursively compiled
sub-scope; group blocks contribute one empty-pattern rule carrying the
group name. -/
def psStmt : Statement → String → ScopeResult → ScopeResult
  | .filePattern pattern dirs, basePath, acc =>
    if pattern = "@folders" then
      { acc with typeOrder :=
          if acc.typeOrder.contains "folders" then acc.typeOrder
          else acc.typeOrder ++ ["folders"] }
    else if pattern = "@groups" then
      { acc with typeOrder :=
          if acc.typeOrder.contains "groups" then acc.typeOrder
          else acc.typeOrder ++ ["groups"] }
    else
      let acc1 :=
        if !isGlobPattern pattern && dirs.isEmpty then
          { acc with explicitOrder := acc.explicitOrder ++ [pattern] }
        else acc
      { acc1 with rules := acc1.rules ++ [compileRule basePath pattern dirs] }
  | .directiveS d, _, acc =>
    if d.name = "tiebreaker" then { acc with tiebreakers := parseTiebreakers d.args }
    else if d.name = "type" then { acc with typeOrder := parseTiebreakers d.args }
    else acc
  | .pathBlock pattern _ block, basePath, acc =>
    if pattern = "" then
      let sub := finalizeScope (psGo block basePath emptyScope)
      { acc with
        tiebreakers := acc.tiebreakers ++ sub.tiebreakers
        rules := acc.rules ++ sub.rules
        explicitOrder := acc.explicitOrder ++ sub.explicitOrder
        typeOrder := if sub.typeOrder ≠ [] then sub.typeOrder else acc.typeOrder }
    else acc
  | .groupBlock gname block, _, acc =>
    let sub := finalizeScope (psGo block "" emptyScope)
    { acc with rules := acc.rules ++
        [{ pattern := .glob "", directives := [],
           groupName := some gname, tiebreakers := some sub.tiebreakers }] }

/-- Statement fold of `processStatements`. -/
def psGo : List Statement → String → ScopeResult → ScopeResult
  | [], _, acc => acc
  | s :: rest, basePath, acc => psGo rest basePath (psStmt s basePath acc)

end

/-- Model of `processStatements`. -/
def processStatements (stmts : List Statement) (basePath : String) : ScopeResult :=
  finalizeScope (psGo stmts basePath emptyScope)

/-! ## Comparator and sort (`applyTiebreakers`) -/
def kindName : FSItem → String
  | .group .. => "groups"
  | .dir .. => "folders"
  | _ => "files"

/-- JS `indexOf` on the type-order list. -/
def idxOf (l : List String) (s : String) : Int :=
  match l.findIdx? (· = s) with
  | some i => (i : Int)
  | none => -1

/-- Stat-field comparison of `size`/`modified`/`created`: descending, with a
failed lookup degrading the comparison to equal. -/
def statCmp (env : Env) (f : FileStat → Int) (a b : FSItem) : Int :=
  match env.stat a.pathOf, env.stat b.pathOf with
  | some sa, some sb => f sb - f sa
  | _, _ => 0

/-- One tiebreaker key of the comparator `switch`. -/
def tbCmp (env : Env) (tb : String) (a b : FSItem) : Int :=
  match tb with
  | "alphabetical" => strCmp a.name b.name
  | "reverse_alphabetical" => strCmp b.name a.name
  | "natural" => naturalCompare a.name b.name
  | "extension" => strCmp (extnameS a.name) (extnameS b.name)
  | "size" => statCmp env (fun st => st.size) a b
  | "modified" => statCmp env (fun st => st.mtimeMs) a b
  | "created" => statCmp env (fun st => st.birthtimeMs) a b
  | _ => 0

/-- Key-by-key tiebreaker loop: first non-zero comparison wins. -/
def tbLoop (env : Env) : List String → FSItem → FSItem → Int
  | [], _, _ => 0
  | t :: ts, a, b =>
    let r := tbCmp env t a b
    if r ≠ 0 then r else tbLoop env ts a b

/-- Full comparator of `applyTiebreakers`: the `@type` category block applies
only when the type order is non-empty and lists both categories; otherwise
the tiebreaker chain decides. -/
def itemsCmp (env : Env) (tbs typeOrder : List String) (a b : FSItem) : Int :=
  let typeRes : Option Int :=
    if typeOrder ≠ [] then
      let ai := idxOf typeOrder (kindName a)
      let bi := idxOf typeOrder (kindName b)
      if ai ≠ -1 ∧ bi ≠ -1 ∧ ai ≠ bi then some (ai - bi) else none
    else none
  match typeRes with
  | some r => r
  | none => tbLoop env tbs a b

/-- Stable insertion: a later element goes after every element it does not
strictly precede.  This is the model of the stable JS `Array.sort`. -/
def insertCmp (cmp : α → α → Int) (x : α) : List α → List α
  | [] => [x]
  | y :: ys => if cmp x y < 0 then x :: y :: ys else y :: insertCmp cmp x ys

/-- Stable sort by a JS-style comparator. -/
def sortCmp (cmp : α → α → Int) (l : List α) : List α :=
  l.foldl (fun acc x => insertCmp cmp x acc) []

/-- Model of `applyTiebreakers`. -/
def applyTiebreakers (env : Env) (files : List FSItem) (tbs typeOrder : List String) :
    List FSItem :=
  sortCmp (itemsCmp env tbs typeOrder) files

/-! ## Rule application (`applyRulesToChildren`) -/
/-- State predicate of lines 338-344: `disallow_if` is tested first, then
`allow_if`, and an unconditional match resets the state to `Normal`. -/
def ruleAssignState (env : Env) (r : Rule) (nm : String) : FileState :=
  if (match r.disallowIf with
      | some re => env.regexTest re nm
      | none => false) then
    .Disallowed
  else
    match r.allowIf with
    | some re => if env.regexTest re nm then .Normal else .Disallowed
    | none => .Normal

/-- Model of `getGroupKey`: `basename` strips all extensions; any other
string is the literal key; a regex key is capture group 1, with no match or
an absent capture giving the empty string. -/
def getGroupKey (env : Env) (item : FSItem) (gb : GroupByVal) : String :=
  match gb with
  | .str s => if s = "basename" then stripAllExts item.name else s
  | .regex src =>
    match env.regexCap1 src item.name with
    | some g => g
    | none => ""

/-- Rule matching: files are matched on their root-relative path, other
items on their name. -/
def matchesRule (env : Env) (r : Rule) (item : FSItem) : Bool :=
  let filePath :=
    match item with
    | .file _ _ p => pathRelRoot p
    | _ => item.name
  match r.pattern with
  | .glob p => minimatch filePath p
  | .regex src => env.regexTest src filePath

/-- Loop state of `applyRulesToChildren`: placed items, the insertion-ordered
group map, the processed set, and the file-state store. -/
structure RuleState where
  ordered : List FSItem
  groups : List (String × List FSItem)
  processed : List FSItem
  sigma : Nat → FileState

/-- Append an item to the bucket of a key, creating the bucket at the end of
the insertion order when absent (JS `Map` semantics). -/
def pushGroup (gs : List (String × List FSItem)) (k : String) (item : FSItem) :
    List (String × List FSItem) :=
  if gs.any (fun p => p.1 = k) then
    gs.map (fun p => if p.1 = k then (p.1, p.2 ++ [item]) else p)
  else gs ++ [(k, [item])]

/-- JS truthiness of the optional group name (an empty string is falsy). -/
def truthyStr : Option String → Option String
  | some s => if s = "" then none else some s
  | none => none

/-- JS truthiness of the compiled `groupBy` (an empty string is falsy, a
regex object is always truthy). -/
def truthyGroupBy : Option GroupByVal → Option GroupByVal
  | some (.str s) => if s = "" then none else some (.str s)
  | x => x

/-- State written by a rule match: only `File` items have a `state` field
that is ever read again; the JS also writes a `state` property onto matched
`Directory` and `Group` objects, which nothing ever reads. -/
def stepSigma (env : Env) (r : Rule) (σ : Nat → FileState) (item : FSItem) :
    Nat → FileState :=
  match item with
  | .file fid fname _ => updState σ fid (ruleAssignState env r fname)
  | _ => σ

/-- Processing of a single matched item by a rule: hidden items are consumed
silently; otherwise the file state is written and the item is placed in a
named group, a derived bucket (only when the key is truthy), or the plain
ordered list. -/
def ruleFileStep (env : Env) (r : Rule) (st : RuleState) (item : FSItem) : RuleState :=
  if r.isHidden then { st with processed := st.processed ++ [item] }
  else
    let σ2 := stepSigma env r st.sigma item
    match truthyStr r.groupName with
    | some gname =>
      { st with sigma := σ2, groups := pushGroup st.groups gname item,
                processed := st.processed ++ [item] }
    | none =>
      match truthyGroupBy r.groupBy with
      | some gb =>
        if getGroupKey env item gb ≠ "" then
          { st with sigma := σ2,
                    groups := pushGroup st.groups (getGroupKey env item gb) item,
                    processed := st.processed ++ [item] }
        else { st with sigma := σ2 }
      | none =>
        { st with sigma := σ2, ordered := st.ordered ++ [item],
                  processed := st.processed ++ [item] }

/-- One rule of the outer loop: compute the matched, still-unprocessed items
against the full child list, then process each in order. -/
def ruleStep (env : Env) (children : List FSItem) (st : RuleState) (r : Rule) : RuleState :=
  let matched := children.filter (fun i => ¬ st.processed.contains i ∧ matchesRule env r i)
  matched.foldl (ruleFileStep env r) st

/-- The rule loop of `applyRulesToChildren`. -/
def runRules (env : Env) (children : List FSItem) (rules : List Rule)
    (st : RuleState) : RuleState :=
  rules.foldl (ruleStep env children) st

/-- Every item a rule state has placed: the plain ordered items plus every
group-bucket member. -/
def placedOf (st : RuleState) : List FSItem :=
  st.ordered ++ st.groups.flatMap (fun p => p.2)

/-- Model of `applyRulesToChildren`: returns the rule-ordered items (groups
appended in alphabetical key order, then the whole list tiebreak-sorted),
the untouched remainder, and the updated state store. -/
def applyRulesToChildren (env : Env) (children : List FSItem) (rules : List Rule)
    (tbs typeOrder : List String) (σ : Nat → FileState) :
    List FSItem × List FSItem × (Nat → FileState) :=
  let stF := runRules env children rules ⟨[], [], [], σ⟩
  let remaining := children.filter (fun i => ¬ stF.processed.contains i)
  let sortedKeys := sortCmp strCmp (stF.groups.map (fun p => p.1))
  let groupItems := sortedKeys.map (fun k =>
    FSItem.group k
      (applyTiebreakers env (((stF.groups.find? (fun p => p.1 = k)).map (fun p => p.2)).getD [])
        tbs typeOrder))
  let orderedChildren := applyTiebreakers env (stF.ordered ++ groupItems) tbs typeOrder
  (orderedChildren, remaining, stF.sigma)

/-! ## Per-scope child processing (`processChildren`) -/
/-- The `st.pattern || ""` access used when collecting group-block members. -/
def stmtPattern : Statement → String
  | .filePattern p _ => p
  | .pathBlock p _ _ => p
  | _ => ""

/-- Remove the first item with the given name, if any. -/
def extractFirstByName : List FSItem → String → Option (FSItem × List FSItem)
  | [], _ => none
  | c :: cs, p =>
    if c.name = p then some (c, cs)
    else
      match extractFirstByName cs p with
      | some (i, rest) => some (i, c :: rest)
      | none => none

/-- Collect the members of one group block (literal name matches, removed
from the child list in pattern order). -/
def collectGroupMembers (pats : List String) (cs : List FSItem) :
    List FSItem × List FSItem :=
  pats.foldl
    (fun (acc : List FSItem × List FSItem) p =>
      match extractFirstByName acc.2 p with
      | some (item, rest) => (acc.1 ++ [item], rest)
      | none => acc)
    ([], cs)

/-- Group-block pass of `processChildren`: groups with at least one member
are emitted, members are removed from the children. -/
def groupBlockPass (stmts : List Statement) (children : List FSItem) :
    List FSItem × List FSItem :=
  stmts.foldl
    (fun (acc : List FSItem × List FSItem) s =>
      match s with
      | .groupBlock gname block =>
        let (members, rest) := collectGroupMembers (block.map stmtPattern) acc.2
        if members ≠ [] then (acc.1 ++ [FSItem.group gname members], rest)
        else (acc.1, rest)
      | _ => acc)
    ([], children)

/-- Explicit-order pass: per pattern, in listing order, claim every
still-unclaimed child whose name matches. -/
def explicitPass (explicitOrder : List String) (children : List FSItem) :
    List FSItem × List FSItem :=
  explicitOrder.foldl
    (fun (acc : List FSItem × List FSItem) pat =>
      children.foldl
        (fun (acc2 : List FSItem × List FSItem) item =>
          if ¬ acc2.2.contains item ∧ minimatch item.name pat then
            (acc2.1 ++ [item], acc2.2 ++ [item])
          else acc2)
        acc)
    ([], [])

/-- Model of `processChildren`. -/
def processChildren (env : Env) (children : List FSItem) (stmts : List Statement)
    (basePath : String) (incomingTbs : Option (List String)) (σ : Nat → FileState) :
    List FSItem × (Nat → FileState) :=
  let scope := processStatements stmts basePath
  let finalTbs := incomingTbs.getD scope.tiebreakers
  let (groups, children1) := groupBlockPass stmts children
  let (explicitItems, processedE) := explicitPass scope.explicitOrder children1
  let remainingForRules := children1.filter (fun i => ¬ processedE.contains i)
  let (ruleOrdered, finalRemaining, σ2) :=
    applyRulesToChildren env remainingForRules scope.rules finalTbs scope.typeOrder σ
  let sortedFinalRemaining := applyTiebreakers env finalRemaining finalTbs scope.typeOrder
  (groups ++ explicitItems ++ ruleOrdered ++ sortedFinalRemaining, σ2)

/-! ## Directory recursion (`processDirectory`, `orderFiles`) -/
def isPathBlockS : Statement → Bool
  | .pathBlock .. => true
  | _ => false

/-- Trailing-slash stripping applied to block patterns before matching. -/
def stripTrailingSlash (p : String) : String :=
  if p.data.getLast? = some '/' then ofChars p.data.dropLast else p

/-- Matching of a compiled path-block pattern against a joined child path. -/
def matchBlockPattern (env : Env) (bp : RulePattern) (childPath : String) : Bool :=
  match bp with
  | .glob p => minimatch childPath (stripTrailingSlash p)
  | .regex src => env.regexTest src childPath

/-- Last `tiebreaker` directive among a block header, if any. -/
def blockTbsOf (dirs : List Directive) : Option (List String) :=
  dirs.foldl (fun acc d => if d.name = "tiebreaker" then some (parseTiebreakers d.args) else acc)
    none

/-- Model of `findMatchingPathBlock`: first path block whose raw pattern
(trailing slash stripped) glob-matches the item name. -/
def findMatchingPathBlock (itemName : String) : List Statement → Option Statement
  | [] => none
  | .pathBlock p bd blk :: rest =>
    if minimatch itemName (stripTrailingSlash p) then some (.pathBlock p bd blk)
    else findMatchingPathBlock itemName rest
  | _ :: rest => findMatchingPathBlock itemName rest

/-- Nested statements of a found path block. -/
def pbBlock : Option Statement → List Statement
  | some (.pathBlock _ _ blk) => blk
  | _ => []

/-- Path-block claiming pass of `processDirectory`: blocks claim matching,
still-unclaimed children in source order and emit them processed under the
block scope (with any header tiebreaker overriding the nested scope). -/
def pathBlockPass (env : Env) (children : List FSItem) (basePath : String)
    (pathBlocks : List Statement) (σ : Nat → FileState) :
    List FSItem × List FSItem × (Nat → FileState) :=
  pathBlocks.foldl
    (fun (acc : List FSItem × List FSItem × (Nat → FileState)) b =>
      match b with
      | .pathBlock bpat bdirs bblock =>
        let (ordered, processed, σc) := acc
        let blockPattern := createPattern bpat basePath
        let matching := children.filter
          (fun c => ¬ processed.contains c ∧
            matchBlockPattern env blockPattern (pathJoin basePath c.name))
        if matching ≠ [] then
          let (sorted, σ2) :=
            processChildren env matching bblock basePath (blockTbsOf bdirs) σc
          (ordered ++ sorted, processed ++ matching, σ2)
        else acc
      | _ => acc)
    ([], [], σ)

/-- Recursion loop of `processDirectory` over the ordered children, with the
per-directory recursion abstracted as `pd`: directories recurse with the
statements of their matching path block (or none), everything else passes
through. -/
def recurseLoop (pd : FSItem → List Statement → String → (Nat → FileState) →
      FSItem × (Nat → FileState))
    (stmts : List Statement) (basePath : String) :
    List FSItem → (Nat → FileState) → List FSItem × (Nat → FileState)
  | [], σ => ([], σ)
  | item :: rest, σ =>
    let step : FSItem × (Nat → FileState) :=
      match item with
      | .dir i n p cs =>
        pd (.dir i n p cs) (pbBlock (findMatchingPathBlock (pathJoin basePath n) stmts))
          (pathJoin basePath n) σ
      | _ => (item, σ)
    let next := recurseLoop pd stmts basePath rest step.2
    (step.1 :: next.1, next.2)

/-- Model of `processDirectory`: claim children through path blocks, order
the rest through the non-block statements, then recurse into directories
(under the matching block scope, or an empty scope).  The JS recursion
always terminates because the snapshot is a finite tree; the fuel makes this
structural, and any fuel at least `sizeOf d` is enough because every
recursive call happens on a member of the child list, whose size is
strictly smaller. -/
def processDirectoryF (env : Env) : Nat → FSItem → List Statement → String →
    (Nat → FileState) → FSItem × (Nat → FileState)
  | 0, d, _, _, σ => (d, σ)
  | fuel + 1, d, stmts, basePath, σ =>
    match d with
    | .dir did dn _ children =>
      let pathBlocks := stmts.filter isPathBlockS
      let remainingStatements := stmts.filter (fun s => ¬ isPathBlockS s)
      let (ordered1, processed1, σ1) := pathBlockPass env children basePath pathBlocks σ
      let remainingChildren := children.filter (fun c => ¬ processed1.contains c)
      let (sortedRemaining, σ2) :=
        processChildren env remainingChildren remainingStatements basePath none σ1
      let orderedChildren := ordered1 ++ sortedRemaining
      let (finalChildren, σ3) :=
        recurseLoop (fun d2 st2 bp2 σ2b => processDirectoryF env fuel d2 st2 bp2 σ2b)
          stmts basePath orderedChildren σ2
      (.dir did dn "" finalChildren, σ3)
    | other => (other, σ)

mutual

/-- Structural size of a snapshot tree, used as recursion fuel. -/
def itemSize : FSItem → Nat
  | .file .. => 1
  | .dir _ _ _ cs => 1 + sizeList cs
  | .group _ cs => 1 + sizeList cs

def sizeList : List FSItem → Nat
  | [] => 1
  | c :: cs => itemSize c + sizeList cs

end

/-- Model of `orderFiles`: process the snapshot root under the whole AST.
The fuel `itemSize d` dominates the tree depth, so the out-of-fuel branch is
never taken. -/
def orderFiles (env : Env) (ast : OrderFile) (d : FSItem) (σ : Nat → FileState) :
    FSItem × (Nat → FileState) :=
  processDirectoryF env (itemSize d) d ast "" σ

/-! ## Required-file validation (`validateRequiredFiles`) -/
mutual

/-- Required patterns contributed by one statement: one entry per `required`
directive on a file pattern with a truthy pattern; blocks are searched
recursively. -/
def reqOfStmt : Statement → List String
  | .filePattern p dirs =>
    (dirs.filter (fun d => d.name = "required")).map (fun _ => p) |>.filter (fun q => q ≠ "")
  | .pathBlock _ _ blk => reqOfList blk
  | .groupBlock _ blk => reqOfList blk
  | .directiveS _ => []

/-- Model of `getRequiredFilesFromStatements`. -/
def reqOfList : List Statement → List String
  | [] => []
  | s :: rest => reqOfStmt s ++ reqOfList rest

end

mutual

/-- Depth-first search of `validateRequiredFiles`: only `File` nodes are
tested against the pattern; directories are traversed; `Group` nodes are
neither tested nor traversed (the `searchDirectory` closure handles only
`File` and `Directory` instances). -/
def searchItem (pattern : String) : FSItem → Bool
  | .file _ _ p => minimatch (pathRelRoot p) pattern
  | .dir _ _ _ cs => searchList pattern cs
  | .group _ _ => false

def searchList (pattern : String) : List FSItem → Bool
  | [] => false
  | c :: cs => searchItem pattern c || searchList pattern cs

end

/-- Model of `validateRequiredFiles`: every required pattern the search
cannot find below the root directory is reported. -/
def validateRequiredFiles (ast : OrderFile) (d : FSItem) : List String :=
  let cs : List FSItem :=
    match d with
    | .dir _ _ _ cs => cs
    | _ => []
  (reqOfList ast).filter (fun p => ¬ searchList p cs)

/-! ## Parse entry point (`parseOrderFile`, `src/core/parser.ts` lines 296-318)

The lexer, the chevrotain parser and the CST visitor are third-party-driven
machinery; the entry point is modelled over abstract stages with exactly the
control flow of the source: lexing errors abort, parsing errors abort, a
visitor exception aborts, otherwise the visited AST is returned. -/
/-- Abstract parsing pipeline: `tokenize` returns tokens plus a (possibly
empty) error list, `parse` returns a CST plus a parser error list, `visit`
either produces the AST or throws. -/
structure ParsePipeline (Tok Cst Err : Type) where
  tokenize : String → List Tok × List Err
  parse : List Tok → Cst × List Err
  visit : Cst → Except String OrderFile

/-- Model of `parseOrderFile`. -/
def parseOrderFile {Tok Cst Err : Type} (P : ParsePipeline Tok Cst Err)
    (text : String) : Option OrderFile :=
  let lexResult := P.tokenize text
  if lexResult.2.length > 0 then none
  else
    let parseResult := P.parse lexResult.1
    if parseResult.2.length > 0 then none
    else
      match P.visit parseResult.1 with
      | .ok ast => some ast
      | .error _ => none

/-! ## Derived notions used by the theorems -/
/-- Children of a directory node. -/
def dirChildren : FSItem → List FSItem
  | .dir _ _ _ cs => cs
  | _ => []

/-- One-level group expansion: a `Group` contributes its members, anything
else contributes itself.  Applied to a produced listing this enumerates
every placed item, whether at top level or inside a synthetic group. -/
def expandG : FSItem → List FSItem
  | .group _ cs => cs
  | x => [x]

def flattenG (l : List FSItem) : List FSItem := l.flatMap expandG

/-- Identity key of an item: files and directories by their object id,
groups by name.  The engine rebuilds directory nodes, so provenance is
tracked by key rather than by node value. -/
inductive ItemKey where
  | fileK (id : Nat)
  | dirK (id : Nat)
  | groupK (gname : String)
deriving DecidableEq

def keyOf : FSItem → ItemKey
  | .file i _ _ => .fileK i
  | .dir i _ _ _ => .dirK i
  | .group n _ => .groupK n

mutual

/-- All file ids occurring anywhere in a tree (including group members). -/
def fileIdsItem : FSItem → List Nat
  | .file i _ _ => [i]
  | .dir _ _ _ cs => fileIdsList cs
  | .group _ cs => fileIdsList cs

def fileIdsList : List FSItem → List Nat
  | [] => []
  | c :: cs => fileIdsItem c ++ fileIdsList cs

end

mutual

/-- All `File` nodes of a subtree in depth-first order, skipping `Group`
nodes exactly as the validation search does. -/
def treeFilesItem : FSItem → List FSItem
  | .file i n p => [.file i n p]
  | .dir _ _ _ cs => treeFilesList cs
  | .group _ _ => []

def treeFilesList : List FSItem → List FSItem
  | [] => []
  | c :: cs => treeFilesItem c ++ treeFilesList cs

end

/-- Pattern of a path-block statement. -/
def pbPattern : Statement → String
  | .pathBlock p _ _ => p
  | _ => ""

/-- The statement list that governs a given child of a directory scope: the
nested statements of the first path block whose compiled pattern matches the
joined child path, or the non-block statements when no block claims it. -/
def scopeStmtsFor (env : Env) (stmts : List Statement) (basePath : String)
    (c : FSItem) : List Statement :=
  match (stmts.filter isPathBlockS).find?
      (fun b => matchBlockPattern env (createPattern (pbPattern b) basePath)
        (pathJoin basePath c.name)) with
  | some (.pathBlock _ _ blk) => blk
  | _ => stmts.filter (fun s => ¬ isPathBlockS s)

/-- A child is free of hidden rules in its scope when no compiled rule of
the scope that carries `hidden` matches it. -/
def hiddenFreeIn (env : Env) (scopeStmts : List Statement) (basePath : String)
    (c : FSItem) : Prop :=
  ∀ r ∈ (processStatements scopeStmts basePath).rules,
    r.isHidden = true → matchesRule env r c = false

/-- Group-block member patterns of a statement list. -/
def groupBlockPatterns (stmts : List Statement) : List String :=
  stmts.flatMap (fun s =>
    match s with
    | .groupBlock _ blk => blk.map stmtPattern
    | _ => [])

/-! ## Concrete material for the example-level theorems -/
/-- Environment with no regexes and no stat capability; sufficient for every
example whose rules are glob-only and whose tiebreakers are name-based. -/
def envTriv : Env := ⟨fun _ _ => false, fun _ _ => none, fun _ => none⟩

/-- All-`Normal` initial file-state store. -/
def sigNormal : Nat → FileState := fun _ => .Normal

/-- Prefix test on character lists. -/
def startsWithL : List Char → List Char → Bool
  | [], _ => true
  | _ :: _, [] => false
  | a :: as, b :: bs => a = b && startsWithL as bs

/-- Substring test on character lists. -/
def containsSub (needle : List Char) : List Char → Bool
  | [] => startsWithL needle []
  | c :: cs => startsWithL needle (c :: cs) || containsSub needle cs

/-- Behaviour of the JS regex `/component/` (plain substring test), used by
the allow/disallow examples. -/
def testComponent (s : String) : Bool :=
  containsSub "component".data s.data

/-- Environment interpreting exactly the regex source `component` (from the
literal `/component/`) as a substring test. -/
def envComponent : Env :=
  ⟨fun src s => if src = "component" then testComponent s else false,
   fun _ _ => none, fun _ => none⟩

/-- Behaviour of the JS regex `/(component)/` under `match`: capture group 1
is the literal `component` whenever the name contains it. -/
def cap1Component (s : String) : Option String :=
  if testComponent s then some "component" else none

/-- Environment interpreting exactly the regex source `(component)` (from
the literal `/(component)/`) for capture-group extraction. -/
def envCapComponent : Env :=
  ⟨fun _ _ => false,
   fun src s => if src = "(component)" then cap1Component s else none,
   fun _ => none⟩

/-! ## Analysis helpers for the rule loop -/
/-- Whether processing a matched item consumes it (adds it to the processed
set): everything except a derived bucket with a falsy key does. -/
def claimsB (env : Env) (r : Rule) (it : FSItem) : Bool :=
  r.isHidden ||
    (match truthyStr r.groupName with
     | some _ => true
     | none =>
       match truthyGroupBy r.groupBy with
       | some gb => getGroupKey env it gb ≠ ""
       | none => true)

/-- Whether processing a matched item places it into the produced listing
(consumed but not hidden). -/
def placesB (env : Env) (r : Rule) (it : FSItem) : Bool :=
  !r.isHidden && claimsB env r it

/-- Keys of the group accumulator. -/
def keysOfG (gs : List (String × List FSItem)) : List String :=
  gs.map (fun p => p.1)

/-- All bucket members of the group accumulator. -/
def flatPG (gs : List (String × List FSItem)) : List FSItem :=
  gs.flatMap (fun p => p.2)

/-- Id of a top-level `File` item; `σ` writes of one scope happen exactly at
these ids. -/
def topFileIdOf : FSItem → Option Nat
  | .file i _ _ => some i
  | _ => none

def c1ast : OrderFile := [.filePattern "b.txt" [], .filePattern "a.txt" []]

def c1a : FSItem := .file 1 "a.txt" "/test/a.txt"

def c1b : FSItem := .file 2 "b.txt" "/test/b.txt"

def c1c : FSItem := .file 3 "c.txt" "/test/c.txt"

def c2snapshot : FSItem := .dir 0 "root" "/r" [.file 1 "a.txt" "/r/a.txt", .dir 2 "z" "/r/z" []]

def c3ast : OrderFile := [.filePattern "app.log" [], .filePattern "*.log" [.mk "hidden" []]]

def c3app : FSItem := .file 1 "app.log" "/r/app.log"

def c5ast : OrderFile := [.filePattern "*.js" [.mk "group_by" [.str "/(component)/"]]]

def c5another : FSItem := .file 1 "another.js" "/r/another.js"

def witTok : ParsePipeline Unit Unit Unit :=
  ⟨fun t => ([], if t = "bad" then [()] else []), fun _ => ((), []), fun _ => .ok []⟩

def c7ast : OrderFile := [.filePattern "docs" [.mk "required" []]]

def c7snapshot : FSItem := .dir 0 "root" "/r" [.dir 1 "docs" "/r/docs" []]

def c8ast : OrderFile := [.filePattern "*.js" [.mk "group" [.str "zgroup"]]]

def c8d0 : FSItem := .dir 0 "root" "/r" [.file 1 "a.txt" "/r/a.txt", .file 2 "b.js" "/r/b.js"]

def c9ast : OrderFile := [.filePattern "*.js" [.mk "disallow_if" [.str "/component/"]]]

def c9comp : FSItem := .file 1 "component.js" "/r/component.js"

def c9anot : FSItem := .file 2 "another.js" "/r/another.js"

/-- Bucket of a key in the group accumulator: the find-then-default access
used by the sorted-group emission of `applyRulesToChildren`. -/
def bucketOf (gs : List (String × List FSItem)) (k : String) : List FSItem :=
  ((gs.find? (fun p => p.1 = k)).map (fun p => p.2)).getD []

/-- Matching of a path block against a child: the predicate of both the
claiming pass and the scope lookup of `findMatchingPathBlock`. -/
def matchesBlockB (env : Env) (basePath : String) (b : Statement) (c : FSItem) : Bool :=
  matchBlockPattern env (createPattern (pbPattern b) basePath) (pathJoin basePath c.name)

/-- The matching set a path block claims at one step of the claiming pass. -/
def pbpMatching (env : Env) (children : List FSItem) (basePath : String)
    (processed : List FSItem) (bpat : String) : List FSItem :=
  children.filter
    (fun c => ¬ processed.contains c ∧
      matchBlockPattern env (createPattern bpat basePath) (pathJoin basePath c.name))

/-- One step of the path-block claiming fold, with the destructuring lets of
`pathBlockPass` written as projections. -/
def pbpStep (env : Env) (children : List FSItem) (basePath : String)
    (acc : List FSItem × List FSItem × (Nat → FileState)) (b : Statement) :
    List FSItem × List FSItem × (Nat → FileState) :=
  match b with
  | .pathBlock bpat bdirs bblock =>
    if pbpMatching env children basePath acc.2.1 bpat ≠ [] then
      (acc.1 ++ (processChildren env (pbpMatching env children basePath acc.2.1 bpat)
          bblock basePath (blockTbsOf bdirs) acc.2.2).1,
       acc.2.1 ++ pbpMatching env children basePath acc.2.1 bpat,
       (processChildren env (pbpMatching env children basePath acc.2.1 bpat)
          bblock basePath (blockTbsOf bdirs) acc.2.2).2)
    else acc
  | _ => acc

mutual

/-- No `Group` node anywhere in a tree: the shape of every real snapshot
(the engine is the only producer of `Group` nodes). -/
def groupFreeItem : FSItem → Bool
  | .file .. => true
  | .dir _ _ _ cs => groupFreeList cs
  | .group _ _ => false

def groupFreeList : List FSItem → Bool
  | [] => true
  | c :: cs => groupFreeItem c && groupFreeList cs

end

/-- Ordered children of one directory level: path-block output followed by
the processed remainder. -/
def pdfOrderedChildren (env : Env) (children : List FSItem) (stmts : List Statement)
    (bp : String) (σ : Nat → FileState) : List FSItem :=
  (pathBlockPass env children bp (stmts.filter isPathBlockS) σ).1 ++
    (processChildren env
      (children.filter (fun c =>
        ¬ (pathBlockPass env children bp (stmts.filter isPathBlockS) σ).2.1.contains c))
      (stmts.filter (fun s => ¬ isPathBlockS s)) bp none
      (pathBlockPass env children bp (stmts.filter isPathBlockS) σ).2.2).1

/-- File-state store after one directory level (before recursion). -/
def pdfSigma2 (env : Env) (children : List FSItem) (stmts : List Statement)
    (bp : String) (σ : Nat → FileState) : Nat → FileState :=
  (processChildren env
    (children.filter (fun c =>
      ¬ (pathBlockPass env children bp (stmts.filter isPathBlockS) σ).2.1.contains c))
    (stmts.filter (fun s => ¬ isPathBlockS s)) bp none
    (pathBlockPass env children bp (stmts.filter isPathBlockS) σ).2.2).2

theorem C1_explicit_order (children : List FSItem)
    (h : children.Perm [c1a, c1b, c1c]) :
    (orderFiles envTriv c1ast (.dir 0 "root" "/test" children) sigNormal).1 =
      .dir 0 "root" "" [c1b, c1a, c1c] := by
  have hlen := h.length_eq
  rcases children with _ | ⟨x, children⟩
  · simp at hlen
  rcases children with _ | ⟨y, children⟩
  · simp at hlen
  rcases children with _ | ⟨z, children⟩
  · simp at hlen
  rcases children with _ | ⟨w, children⟩
  swap
  · simp at hlen
  have hx : x ∈ [c1a, c1b, c1c] := h.subset (by simp)
  have hy : y ∈ [c1a, c1b, c1c] := h.subset (by simp)
  have hz : z ∈ [c1a, c1b, c1c] := h.subset (by simp)
  simp only [List.mem_cons, List.not_mem_nil, or_false] at hx hy hz
  rcases hx with rfl | rfl | rfl <;> rcases hy with rfl | rfl | rfl <;>
    rcases hz with rfl | rfl | rfl <;>
      first
        | exact absurd h (by decide)
        | decide

theorem C1_witness :
    ([c1c, c1a, c1b] : List FSItem).Perm [c1a, c1b, c1c] ∧
    (orderFiles envTriv c1ast (.dir 0 "root" "/test" [c1c, c1a, c1b]) sigNormal).1 =
      .dir 0 "root" "" [c1b, c1a, c1c] :=
  ⟨by decide, C1_explicit_order [c1c, c1a, c1b] (by decide)⟩

theorem C2_counterexample :
    (orderFiles envTriv [] c2snapshot sigNormal).1 =
      .dir 0 "root" "" [.file 1 "a.txt" "/r/a.txt", .dir 2 "z" "" []] ∧
    kindName (.file 1 "a.txt" "/r/a.txt") = "files" ∧
    kindName (.dir 2 "z" "" []) = "folders" := by decide

theorem tbCmp_kind_blind (env : Env) (t : String) (x y : FSItem) :
    tbCmp env t x y = tbCmp env t (.file 0 x.name x.pathOf) (.file 0 y.name y.pathOf) := by
  unfold tbCmp
  split <;> rfl

theorem tbLoop_kind_blind (env : Env) (tbs : List String) (x y : FSItem) :
    tbLoop env tbs x y =
      tbLoop env tbs (.file 0 x.name x.pathOf) (.file 0 y.name y.pathOf) := by
  induction tbs with
  | nil => rfl
  | cons t ts ih =>
    calc tbLoop env (t :: ts) x y
        = if tbCmp env t x y ≠ 0 then tbCmp env t x y else tbLoop env ts x y := rfl
      _ = if tbCmp env t (.file 0 x.name x.pathOf) (.file 0 y.name y.pathOf) ≠ 0 then
            tbCmp env t (.file 0 x.name x.pathOf) (.file 0 y.name y.pathOf)
          else tbLoop env ts (.file 0 x.name x.pathOf) (.file 0 y.name y.pathOf) := by
          rw [tbCmp_kind_blind env t x y, ih]
      _ = tbLoop env (t :: ts) (.file 0 x.name x.pathOf) (.file 0 y.name y.pathOf) := rfl

theorem C2_amended (env : Env) (tbs : List String) (a b : FSItem) :
    itemsCmp env tbs [] a b =
      itemsCmp env tbs [] (.file 0 a.name a.pathOf) (.file 0 b.name b.pathOf) := by
  show tbLoop env tbs a b = tbLoop env tbs _ _
  exact tbLoop_kind_blind env tbs a b

theorem C3_counterexample :
    ∃ r ∈ (processStatements c3ast "").rules,
      r.isHidden = true ∧ matchesRule envTriv r c3app = true ∧
      (orderFiles envTriv c3ast (.dir 0 "root" "/r" [c3app]) sigNormal).1 =
        .dir 0 "root" "" [c3app] := by decide

theorem C5_counterexample :
    (∃ r ∈ (processStatements c5ast "").rules,
       r.groupBy = some (.regex "(component)") ∧
       matchesRule envCapComponent r c5another = true) ∧
    envCapComponent.regexCap1 "(component)" "another.js" = none ∧
    (orderFiles envCapComponent c5ast (.dir 0 "root" "/r" [c5another]) sigNormal).1 =
      .dir 0 "root" "" [c5another] := by decide

theorem C6_parse_all_or_nothing {Tok Cst Err : Type} (P : ParsePipeline Tok Cst Err)
    (text : String) :
    ((P.tokenize text).2 ≠ [] → parseOrderFile P text = none) ∧
    ((P.parse (P.tokenize text).1).2 ≠ [] → parseOrderFile P text = none) ∧
    (∀ e, P.visit (P.parse (P.tokenize text).1).1 = .error e → parseOrderFile P text = none) ∧
    (∀ ast, (P.tokenize text).2 = [] → (P.parse (P.tokenize text).1).2 = [] →
      P.visit (P.parse (P.tokenize text).1).1 = .ok ast → parseOrderFile P text = some ast) := by
  unfold parseOrderFile
  refine ⟨?_, ?_, ?_, ?_⟩
  · intro h
    simp [List.length_pos.2 h]
  · intro h
    by_cases h1 : (P.tokenize text).2.length > 0
    · simp [h1]
    · simp [h1, List.length_pos.2 h]
  · intro e he
    by_cases h1 : (P.tokenize text).2.length > 0
    · simp [h1]
    · by_cases h2 : (P.parse (P.tokenize text).1).2.length > 0
      · simp [h1, h2]
      · simp [h1, h2, he]
  · intro ast h1 h2 he
    simp [h1, h2, he]

theorem C6_witness :
    parseOrderFile witTok "bad" = none ∧ parseOrderFile witTok "ok" = some [] :=
  ⟨(C6_parse_all_or_nothing witTok "bad").1 (by decide),
   (C6_parse_all_or_nothing witTok "ok").2.2.2 [] (by decide) (by decide) rfl⟩

theorem C7_counterexample :
    validateRequiredFiles c7ast c7snapshot = ["docs"] ∧
    (∃ node ∈ dirChildren c7snapshot, node.isDirI = true ∧
       minimatch (pathRelRoot node.pathOf) "docs" = true) := by decide

theorem C8_not_idempotent :
    (orderFiles envTriv c8ast c8d0 sigNormal).1 =
      .dir 0 "root" ""
        [.group "zgroup" [.file 2 "b.js" "/r/b.js"], .file 1 "a.txt" "/r/a.txt"] ∧
    (orderFiles envTriv c8ast (orderFiles envTriv c8ast c8d0 sigNormal).1
        (orderFiles envTriv c8ast c8d0 sigNormal).2).1 =
      .dir 0 "root" ""
        [.file 1 "a.txt" "/r/a.txt", .group "zgroup" [.file 2 "b.js" "/r/b.js"]] := by decide

theorem C9_counterexample :
    sigNormal 1 = .Normal ∧
    (orderFiles envComponent c9ast (.dir 0 "root" "/r" [c9comp, c9anot]) sigNormal).2 1 =
      .Disallowed := by decide

/-! ## Permutation and membership infrastructure -/
theorem insertCmp_perm {α : Type} (cmp : α → α → Int) (x : α) (l : List α) :
    (insertCmp cmp x l).Perm (x :: l) := by
  induction l with
  | nil => exact List.Perm.refl _
  | cons y ys ih =>
    unfold insertCmp
    by_cases h : cmp x y < 0
    · simp [h]
    · simp only [h, if_false, ite_false]
      exact (ih.cons y).trans (List.Perm.swap x y ys)

theorem sortCmpAux_perm {α : Type} (cmp : α → α → Int) (l acc : List α) :
    (l.foldl (fun a x => insertCmp cmp x a) acc).Perm (acc ++ l) := by
  induction l generalizing acc with
  | nil => simp
  | cons x xs ih =>
    simp only [List.foldl_cons]
    exact ((ih (insertCmp cmp x acc)).trans
      (((insertCmp_perm cmp x acc).append_right xs).trans List.perm_middle.symm))

theorem sortCmp_perm {α : Type} (cmp : α → α → Int) (l : List α) :
    (sortCmp cmp l).Perm l := by
  simpa using sortCmpAux_perm cmp l []

theorem applyTiebreakers_perm (env : Env) (files : List FSItem) (tbs tOrd : List String) :
    (applyTiebreakers env files tbs tOrd).Perm files :=
  sortCmp_perm _ _

theorem flattenG_append (a b : List FSItem) :
    flattenG (a ++ b) = flattenG a ++ flattenG b := by
  simp [flattenG]

theorem mem_flattenG {x : FSItem} {l : List FSItem} :
    x ∈ flattenG l ↔ ∃ y ∈ l, x ∈ expandG y := by
  simp [flattenG]

theorem flattenG_perm {l l2 : List FSItem} (h : l.Perm l2) :
    (flattenG l).Perm (flattenG l2) :=
  h.flatMap_right expandG

theorem expandG_nongroup {x : FSItem} (h : x.isGroupI = false) : expandG x = [x] := by
  cases x <;> simp_all [expandG, FSItem.isGroupI]

theorem fileIdsList_append (a b : List FSItem) :
    fileIdsList (a ++ b) = fileIdsList a ++ fileIdsList b := by
  induction a with
  | nil => rfl
  | cons c cs ih => simp [fileIdsList, ih]

theorem fileIdsList_filter_subset (p : FSItem → Bool) (l : List FSItem) :
    fileIdsList (l.filter p) ⊆ fileIdsList l := by
  induction l with
  | nil => simp
  | cons c cs ih =>
    by_cases h : p c
    · simp only [List.filter_cons, h, if_true, ite_true, fileIdsList]
      exact List.append_subset.2 ⟨List.subset_append_left _ _,
        ih.trans (List.subset_append_right _ _)⟩
    · simp only [List.filter_cons, h, if_false, ite_false, fileIdsList]
      exact ih.trans (List.subset_append_right _ _)

theorem mem_fileIdsList_of_mem {i : Nat} {c : FSItem} {l : List FSItem}
    (hc : c ∈ l) (hi : i ∈ fileIdsItem c) : i ∈ fileIdsList l := by
  induction l with
  | nil => cases hc
  | cons d ds ih =>
    cases hc with
    | head => simp only [fileIdsList, List.mem_append]; exact Or.inl hi
    | tail _ hc => simp only [fileIdsList, List.mem_append]; exact Or.inr (ih hc)

/-! ## Push-group and rule-step structure -/
theorem pushGroup_flat_mem {gs : List (String × List FSItem)} {k : String}
    {it y : FSItem}
    (h : y ∈ (pushGroup gs k it).flatMap (fun p => p.2)) :
    y ∈ gs.flatMap (fun p => p.2) ∨ y = it := by
  unfold pushGroup at h
  split at h
  · rcases List.mem_flatMap.1 h with ⟨q, hq, hy⟩
    rcases List.mem_map.1 hq with ⟨p, hp, hpq⟩
    by_cases hk : p.1 = k
    · rw [if_pos hk] at hpq
      subst hpq
      rcases List.mem_append.1 hy with hy | hy
      · exact Or.inl (List.mem_flatMap.2 ⟨p, hp, hy⟩)
      · exact Or.inr (List.mem_singleton.1 hy)
    · rw [if_neg hk] at hpq
      subst hpq
      exact Or.inl (List.mem_flatMap.2 ⟨p, hp, hy⟩)
  · rw [List.flatMap_append] at h
    rcases List.mem_append.1 h with h | h
    · exact Or.inl h
    · simp only [List.flatMap_cons, List.flatMap_nil, List.append_nil,
        List.mem_singleton] at h
      exact Or.inr h

theorem pushGroup_flat_super {gs : List (String × List FSItem)} {k : String}
    {it y : FSItem}
    (h : y ∈ gs.flatMap (fun p => p.2)) :
    y ∈ (pushGroup gs k it).flatMap (fun p => p.2) := by
  unfold pushGroup
  split
  · rcases List.mem_flatMap.1 h with ⟨p, hp, hy⟩
    refine List.mem_flatMap.2 ?_
    by_cases hk : p.1 = k
    · exact ⟨(p.1, p.2 ++ [it]),
        List.mem_map.2 ⟨p, hp, by rw [if_pos hk]⟩, List.mem_append_left _ hy⟩
    · exact ⟨p, List.mem_map.2 ⟨p, hp, by rw [if_neg hk]⟩, hy⟩
  · rw [List.flatMap_append]
    exact List.mem_append_left _ h

theorem ruleFileStep_hidden (env : Env) (r : Rule) (st : RuleState) (it : FSItem)
    (h : r.isHidden = true) :
    ruleFileStep env r st it = { st with processed := st.processed ++ [it] } := by
  unfold ruleFileStep
  simp [h]

theorem stepSigma_frame (env : Env) (r : Rule) (σ : Nat → FileState) (it : FSItem)
    (i : Nat) (hi : i ∉ fileIdsItem it) : stepSigma env r σ it i = σ i := by
  cases it with
  | file fid fn fp =>
    simp only [fileIdsItem, List.mem_singleton] at hi
    simp [stepSigma, updState, hi]
  | dir j n p cs => rfl
  | group n cs => rfl

theorem ruleFileStep_spec (env : Env) (r : Rule) (st : RuleState) (it : FSItem) :
    ((ruleFileStep env r st it).processed = st.processed ++ [it] ∨
      (ruleFileStep env r st it).processed = st.processed) ∧
    (∀ y, y ∈ placedOf (ruleFileStep env r st it) → y ∈ placedOf st ∨ y = it) ∧
    (∀ y ∈ placedOf st, y ∈ placedOf (ruleFileStep env r st it)) ∧
    (∀ i, i ∉ fileIdsItem it → (ruleFileStep env r st it).sigma i = st.sigma i) := by
  by_cases hh : r.isHidden = true
  · rw [ruleFileStep_hidden env r st it hh]
    exact ⟨Or.inl rfl, fun y hy => Or.inl hy, fun y hy => hy, fun i _ => rfl⟩
  · unfold ruleFileStep
    rw [if_neg hh]
    rcases hg : truthyStr r.groupName with _ | g
    · simp only [hg]
      rcases hgb : truthyGroupBy r.groupBy with _ | gb
      · simp only [hgb]
        refine ⟨by simp, ?_, ?_, fun i hi => stepSigma_frame env r st.sigma it i hi⟩
        · intro y hy
          simp only [placedOf, List.mem_append, List.mem_singleton] at hy ⊢
          tauto
        · intro y hy
          simp only [placedOf, List.mem_append, List.mem_singleton] at hy ⊢
          tauto
      · simp only [hgb]
        by_cases hk : getGroupKey env it gb ≠ ""
        · rw [if_pos hk]
          refine ⟨by simp, ?_, ?_, fun i hi => stepSigma_frame env r st.sigma it i hi⟩
          · intro y hy
            simp only [placedOf, List.mem_append] at hy
            rcases hy with hy | hy
            · exact Or.inl (List.mem_append_left _ hy)
            · rcases pushGroup_flat_mem hy with hy | rfl
              · exact Or.inl (List.mem_append_right _ hy)
              · exact Or.inr rfl
          · intro y hy
            simp only [placedOf, List.mem_append] at hy ⊢
            rcases hy with hy | hy
            · exact Or.inl hy
            · exact Or.inr (pushGroup_flat_super hy)
        · rw [if_neg hk]
          exact ⟨by simp, fun y hy => Or.inl hy, fun y hy => hy,
            fun i hi => stepSigma_frame env r st.sigma it i hi⟩
    · simp only [hg]
      refine ⟨by simp, ?_, ?_, fun i hi => stepSigma_frame env r st.sigma it i hi⟩
      · intro y hy
        simp only [placedOf, List.mem_append] at hy
        rcases hy with hy | hy
        · exact Or.inl (List.mem_append_left _ hy)
        · rcases pushGroup_flat_mem hy with hy | rfl
          · exact Or.inl (List.mem_append_right _ hy)
          · exact Or.inr rfl
      · intro y hy
        simp only [placedOf, List.mem_append] at hy ⊢
        rcases hy with hy | hy
        · exact Or.inl hy
        · exact Or.inr (pushGroup_flat_super hy)

/-! ## Fold-level structure of the rule loop -/
theorem foldSteps_spec (env : Env) (r : Rule) (items : List FSItem) :
    ∀ st : RuleState,
    (∀ y ∈ (items.foldl (ruleFileStep env r) st).processed, y ∈ st.processed ∨ y ∈ items) ∧
    (∀ y ∈ st.processed, y ∈ (items.foldl (ruleFileStep env r) st).processed) ∧
    (∀ y, y ∈ placedOf (items.foldl (ruleFileStep env r) st) →
      y ∈ placedOf st ∨ y ∈ items) ∧
    (∀ y ∈ placedOf st, y ∈ placedOf (items.foldl (ruleFileStep env r) st)) ∧
    (∀ i, i ∉ fileIdsList items → (items.foldl (ruleFileStep env r) st).sigma i = st.sigma i) := by
  induction items with
  | nil => exact fun st => ⟨fun y hy => Or.inl hy, fun y hy => hy,
      fun y hy => Or.inl hy, fun y hy => hy, fun i _ => rfl⟩
  | cons it its ih =>
    intro st
    obtain ⟨hp1, hp2, hq1, hq2, hs⟩ := ih (ruleFileStep env r st it)
    obtain ⟨sp, sq1, sq2, ss⟩ := ruleFileStep_spec env r st it
    simp only [List.foldl_cons]
    refine ⟨?_, ?_, ?_, ?_, ?_⟩
    · intro y hy
      rcases hp1 y hy with hy | hy
      · rcases sp with hs1 | hs1
        · rw [hs1] at hy
          rcases List.mem_append.1 hy with hy | hy
          · exact Or.inl hy
          · exact Or.inr (by simp at hy; simp [hy])
        · rw [hs1] at hy
          exact Or.inl hy
      · exact Or.inr (List.mem_cons_of_mem _ hy)
    · intro y hy
      refine hp2 y ?_
      rcases sp with hs1 | hs1
      · rw [hs1]; exact List.mem_append_left _ hy
      · rw [hs1]; exact hy
    · intro y hy
      rcases hq1 y hy with hy | hy
      · rcases sq1 y hy with hy | rfl
        · exact Or.inl hy
        · exact Or.inr (List.mem_cons_self _ _)
      · exact Or.inr (List.mem_cons_of_mem _ hy)
    · intro y hy
      exact hq2 y (sq2 y hy)
    · intro i hi
      have hi1 : i ∉ fileIdsItem it := by
        intro hcon
        exact hi (by simpa [fileIdsList, List.mem_append] using Or.inl hcon)
      have hi2 : i ∉ fileIdsList its := by
        intro hcon
        exact hi (by simpa [fileIdsList, List.mem_append] using Or.inr hcon)
      rw [hs i hi2, ss i hi1]

theorem foldSteps_hidden (env : Env) (r : Rule) (h : r.isHidden = true)
    (items : List FSItem) :
    ∀ st : RuleState,
    items.foldl (ruleFileStep env r) st = { st with processed := st.processed ++ items } := by
  induction items with
  | nil => intro st; simp
  | cons it its ih =>
    intro st
    simp only [List.foldl_cons, ruleFileStep_hidden env r st it h, ih]
    simp [List.append_assoc]

/-! ## Rule-level and loop-level structure -/
theorem mem_matchedOf {env : Env} {children : List FSItem} {st : RuleState} {r : Rule}
    {y : FSItem} :
    y ∈ children.filter (fun i => ¬ st.processed.contains i ∧ matchesRule env r i) ↔
      y ∈ children ∧ y ∉ st.processed ∧ matchesRule env r y = true := by
  simp [List.mem_filter, List.contains, List.elem_iff]

theorem ruleStep_spec (env : Env) (children : List FSItem) (st : RuleState) (r : Rule) :
    (∀ y ∈ (ruleStep env children st r).processed,
      y ∈ st.processed ∨ (y ∈ children ∧ matchesRule env r y = true)) ∧
    (∀ y ∈ st.processed, y ∈ (ruleStep env children st r).processed) ∧
    (∀ y, y ∈ placedOf (ruleStep env children st r) →
      y ∈ placedOf st ∨ (y ∈ children ∧ y ∉ st.processed ∧ matchesRule env r y = true)) ∧
    (∀ y ∈ placedOf st, y ∈ placedOf (ruleStep env children st r)) ∧
    (∀ i, i ∉ fileIdsList children → (ruleStep env children st r).sigma i = st.sigma i) := by
  unfold ruleStep
  obtain ⟨hp1, hp2, hq1, hq2, hs⟩ := foldSteps_spec env r
    (children.filter (fun i => ¬ st.processed.contains i ∧ matchesRule env r i)) st
  refine ⟨?_, hp2, ?_, hq2, ?_⟩
  · intro y hy
    rcases hp1 y hy with hy | hy
    · exact Or.inl hy
    · obtain ⟨h1, _, h3⟩ := mem_matchedOf.1 hy
      exact Or.inr ⟨h1, h3⟩
  · intro y hy
    rcases hq1 y hy with hy | hy
    · exact Or.inl hy
    · exact Or.inr (mem_matchedOf.1 hy)
  · intro i hi
    exact hs i (fun hcon => hi (fileIdsList_filter_subset _ _ hcon))

theorem runRules_spec (env : Env) (children : List FSItem) (rules : List Rule) :
    ∀ st : RuleState,
    (∀ y ∈ (runRules env children rules st).processed, y ∈ st.processed ∨ y ∈ children) ∧
    (∀ y ∈ st.processed, y ∈ (runRules env children rules st).processed) ∧
    (∀ y, y ∈ placedOf (runRules env children rules st) → y ∈ placedOf st ∨ y ∈ children) ∧
    (∀ y ∈ placedOf st, y ∈ placedOf (runRules env children rules st)) ∧
    (∀ i, i ∉ fileIdsList children → (runRules env children rules st).sigma i = st.sigma i) := by
  induction rules with
  | nil => exact fun st => ⟨fun y hy => Or.inl hy, fun y hy => hy,
      fun y hy => Or.inl hy, fun y hy => hy, fun i _ => rfl⟩
  | cons r rs ih =>
    intro st
    obtain ⟨hp1, hp2, hq1, hq2, hs⟩ := ih (ruleStep env children st r)
    obtain ⟨sp1, sp2, sq1, sq2, ss⟩ := ruleStep_spec env children st r
    refine ⟨?_, ?_, ?_, ?_, ?_⟩
    · intro y hy
      rcases hp1 y hy with hy | hy
      · rcases sp1 y hy with hy | hy
        · exact Or.inl hy
        · exact Or.inr hy.1
      · exact Or.inr hy
    · intro y hy
      exact hp2 y (sp2 y hy)
    · intro y hy
      rcases hq1 y hy with hy | hy
      · rcases sq1 y hy with hy | hy
        · exact Or.inl hy
        · exact Or.inr hy.1
      · exact Or.inr hy
    · intro y hy
      exact hq2 y (sq2 y hy)
    · intro i hi
      exact (hs i hi).trans (ss i hi)

theorem runRules_keeps (env : Env) (children : List FSItem) (rules : List Rule)
    (x : FSItem) :
    ∀ st : RuleState, x ∈ st.processed → x ∉ placedOf st →
    x ∈ (runRules env children rules st).processed ∧
      x ∉ placedOf (runRules env children rules st) := by
  induction rules with
  | nil => exact fun st h1 h2 => ⟨h1, h2⟩
  | cons r rs ih =>
    intro st h1 h2
    obtain ⟨sp1, sp2, sq1, sq2, _⟩ := ruleStep_spec env children st r
    refine ih (ruleStep env children st r) (sp2 x h1) ?_
    intro hcon
    rcases sq1 x hcon with hcon | hcon
    · exact h2 hcon
    · exact hcon.2.1 h1

theorem runRules_hidden_notPlaced (env : Env) (children : List FSItem) (x : FSItem)
    (hx : x ∈ children) :
    ∀ (rules : List Rule) (st : RuleState) (rh : Rule),
    x ∉ st.processed → x ∉ placedOf st →
    rules.find? (fun r => matchesRule env r x) = some rh → rh.isHidden = true →
    x ∈ (runRules env children rules st).processed ∧
      x ∉ placedOf (runRules env children rules st) := by
  intro rules
  induction rules with
  | nil => intro st rh _ _ hf; cases hf  -- find? on [] is none
  | cons r rs ih =>
    intro st rh hpr hpl hf hh
    by_cases hm : matchesRule env r x = true
    · have hr : rh = r := by
        rw [List.find?_cons_of_pos _ (by simpa using hm)] at hf
        exact (Option.some_injective _ hf).symm
      have hhr : r.isHidden = true := hr ▸ hh
      -- the rule is hidden; every matched item (x among them) is consumed
      have hstep : ruleStep env children st r =
          { st with processed := st.processed ++
              children.filter (fun i => ¬ st.processed.contains i ∧ matchesRule env r i) } := by
        unfold ruleStep
        exact foldSteps_hidden env r hhr _ st
      have hxp : x ∈ (ruleStep env children st r).processed := by
        rw [hstep]
        exact List.mem_append_right _ (mem_matchedOf.2 ⟨hx, hpr, hm⟩)
      have hxq : x ∉ placedOf (ruleStep env children st r) := by
        rw [hstep]
        simpa [placedOf] using hpl
      exact runRules_keeps env children rs x (ruleStep env children st r) hxp hxq
    · have hf2 : rs.find? (fun r2 => matchesRule env r2 x) = some rh := by
        rwa [List.find?_cons_of_neg _ (by simpa using hm)] at hf
      obtain ⟨sp1, sp2, sq1, sq2, _⟩ := ruleStep_spec env children st r
      refine ih (ruleStep env children st r) rh ?_ ?_ hf2 hh
      · intro hcon
        rcases sp1 x hcon with hcon | hcon
        · exact hpr hcon
        · exact hm hcon.2
      · intro hcon
        rcases sq1 x hcon with hcon | hcon
        · exact hpl hcon
        · exact hm hcon.2.2

/-! ## Count-level structure of the rule loop -/
theorem count_filter_eq {α : Type} [DecidableEq α] (l : List α) (p : α → Bool) (a : α) :
    (l.filter p).count a = if p a = true then l.count a else 0 := by
  by_cases h : p a = true
  · rw [if_pos h, List.count_filter h]
  · rw [if_neg h, List.count_eq_zero]
    intro hc
    exact h (List.mem_filter.1 hc).2

theorem flattenG_eq_of_nongroup {l : List FSItem} (h : ∀ y ∈ l, y.isGroupI = false) :
    flattenG l = l := by
  induction l with
  | nil => rfl
  | cons c cs ih =>
    have hc : expandG c = [c] := expandG_nongroup (h c (List.mem_cons_self _ _))
    have h2 := ih (fun y hy => h y (List.mem_cons_of_mem _ hy))
    simp only [flattenG, List.flatMap_cons] at h2 ⊢
    rw [hc, h2]
    rfl

theorem flatMap_congr_mem {α β : Type} {l : List α} {f g : α → List β}
    (h : ∀ a ∈ l, f a = g a) : l.flatMap f = l.flatMap g := by
  induction l with
  | nil => rfl
  | cons a as ih =>
    simp only [List.flatMap_cons]
    rw [h a (List.mem_cons_self _ _), ih (fun b hb => h b (List.mem_cons_of_mem _ hb))]

theorem keysOfG_cons (p : String × List FSItem) (rest : List (String × List FSItem)) :
    keysOfG (p :: rest) = p.1 :: keysOfG rest := rfl

theorem map_upd_of_not_mem {gs : List (String × List FSItem)} {k : String} {it : FSItem}
    (h : k ∉ keysOfG gs) :
    gs.map (fun p => if p.1 = k then (p.1, p.2 ++ [it]) else p) = gs := by
  induction gs with
  | nil => rfl
  | cons p rest ih =>
    have h1 : p.1 ≠ k := by
      intro hc
      exact h (by simp [keysOfG_cons, hc])
    have h2 : k ∉ keysOfG rest := by
      intro hc
      rw [keysOfG_cons] at h
      exact h (List.mem_cons_of_mem _ hc)
    simp only [List.map_cons, if_neg h1, ih h2]

theorem pushGroup_keys_any {gs : List (String × List FSItem)} {k : String} {it : FSItem}
    (h : gs.any (fun p => p.1 = k) = true) :
    keysOfG (pushGroup gs k it) = keysOfG gs := by
  unfold pushGroup
  rw [if_pos h]
  unfold keysOfG
  rw [List.map_map]
  refine List.map_congr_left ?_
  intro p _
  by_cases hk : p.1 = k
  · simp [hk]
  · simp [hk]

theorem pushGroup_keys_new {gs : List (String × List FSItem)} {k : String} {it : FSItem}
    (h : ¬ gs.any (fun p => p.1 = k) = true) :
    keysOfG (pushGroup gs k it) = keysOfG gs ++ [k] := by
  unfold pushGroup
  rw [if_neg h]
  simp [keysOfG]

theorem pushGroup_ukeys {gs : List (String × List FSItem)} {k : String} {it : FSItem}
    (hU : (keysOfG gs).Nodup) : (keysOfG (pushGroup gs k it)).Nodup := by
  by_cases ha : gs.any (fun p => p.1 = k) = true
  · rw [pushGroup_keys_any ha]
    exact hU
  · rw [pushGroup_keys_new ha]
    have hk : k ∉ keysOfG gs := by
      intro hc
      rcases List.mem_map.1 hc with ⟨p, hp, hpk⟩
      exact ha (List.any_eq_true.2 ⟨p, hp, by simp [hpk]⟩)
    simp [List.nodup_append, hU, hk]

theorem flatPG_map_upd_count {gs : List (String × List FSItem)} {k : String} {it : FSItem}
    (hU : (keysOfG gs).Nodup)
    (hany : gs.any (fun p => p.1 = k) = true) (y : FSItem) :
    (flatPG (gs.map (fun p => if p.1 = k then (p.1, p.2 ++ [it]) else p))).count y =
      (flatPG gs).count y + (if it = y then 1 else 0) := by
  induction gs with
  | nil => cases hany
  | cons p rest ih =>
    rw [keysOfG_cons, List.nodup_cons] at hU
    by_cases hpk : p.1 = k
    · have hkrest : k ∉ keysOfG rest := hpk ▸ hU.1
      simp only [List.map_cons, if_pos hpk, map_upd_of_not_mem hkrest]
      simp only [flatPG, List.flatMap_cons, List.count_append]
      by_cases hy : it = y
      · simp [hy]
        omega
      · simp [List.count_singleton', hy]
    · have hany2 : rest.any (fun q => q.1 = k) = true := by
        simp only [List.any_cons] at hany
        rcases Bool.or_eq_true_iff.1 hany with h | h
        · exact absurd (by simpa using h) hpk
        · exact h
      simp only [List.map_cons, if_neg hpk]
      simp only [flatPG, List.flatMap_cons, List.count_append] at ih ⊢
      rw [ih hU.2 hany2]
      omega

theorem pushGroup_flatPG_count {gs : List (String × List FSItem)} {k : String}
    {it : FSItem} (hU : (keysOfG gs).Nodup) (y : FSItem) :
    (flatPG (pushGroup gs k it)).count y =
      (flatPG gs).count y + (if it = y then 1 else 0) := by
  by_cases ha : gs.any (fun p => p.1 = k) = true
  · unfold pushGroup
    rw [if_pos ha]
    exact flatPG_map_upd_count hU ha y
  · unfold pushGroup
    rw [if_neg ha]
    simp only [flatPG, List.flatMap_append, List.flatMap_cons, List.flatMap_nil,
      List.append_nil, List.count_append]
    by_cases hy : it = y
    · simp [hy]
    · simp [List.count_singleton', hy]

theorem placedOf_eq (st : RuleState) : placedOf st = st.ordered ++ flatPG st.groups := rfl

theorem ruleFileStep_processed_eq (env : Env) (r : Rule) (st : RuleState) (it : FSItem) :
    (ruleFileStep env r st it).processed =
      st.processed ++ (if claimsB env r it = true then [it] else []) := by
  by_cases hh : r.isHidden = true
  · rw [ruleFileStep_hidden env r st it hh]
    simp [claimsB, hh]
  · unfold ruleFileStep
    rw [if_neg hh]
    rw [Bool.not_eq_true] at hh
    rcases hg : truthyStr r.groupName with _ | g
    · simp only [hg]
      rcases hgb : truthyGroupBy r.groupBy with _ | gb
      · simp only [hgb]
        simp [claimsB, hh, hg, hgb]
      · simp only [hgb]
        by_cases hk : getGroupKey env it gb ≠ ""
        · rw [if_pos hk]
          simp [claimsB, hh, hg, hgb, hk]
        · rw [if_neg hk]
          simp only [claimsB, hh, hg, hgb, Bool.false_or]
          rw [if_neg (by simpa using hk)]
          simp
    · simp only [hg]
      simp [claimsB, hh, hg]

theorem ruleFileStep_ukeys (env : Env) (r : Rule) (st : RuleState) (it : FSItem)
    (hU : (keysOfG st.groups).Nodup) :
    (keysOfG (ruleFileStep env r st it).groups).Nodup := by
  by_cases hh : r.isHidden = true
  · rw [ruleFileStep_hidden env r st it hh]
    exact hU
  · unfold ruleFileStep
    rw [if_neg hh]
    rcases hg : truthyStr r.groupName with _ | g
    · simp only [hg]
      rcases hgb : truthyGroupBy r.groupBy with _ | gb
      · simp only [hgb]
        exact hU
      · simp only [hgb]
        by_cases hk : getGroupKey env it gb ≠ ""
        · rw [if_pos hk]
          exact pushGroup_ukeys hU
        · rw [if_neg hk]
          exact hU
    · simp only [hg]
      exact pushGroup_ukeys hU

theorem ruleFileStep_placed_count (env : Env) (r : Rule) (st : RuleState) (it : FSItem)
    (hU : (keysOfG st.groups).Nodup) (y : FSItem) :
    (placedOf (ruleFileStep env r st it)).count y =
      (placedOf st).count y + (if placesB env r it = true ∧ it = y then 1 else 0) := by
  by_cases hh : r.isHidden = true
  · rw [ruleFileStep_hidden env r st it hh]
    simp [placesB, hh, placedOf]
  · unfold ruleFileStep
    rw [if_neg hh]
    rw [Bool.not_eq_true] at hh
    rcases hg : truthyStr r.groupName with _ | g
    · simp only [hg]
      rcases hgb : truthyGroupBy r.groupBy with _ | gb
      · simp only [hgb]
        show ((st.ordered ++ [it]) ++ flatPG st.groups).count y = _
        have hp : placesB env r it = true := by simp [placesB, claimsB, hh, hg, hgb]
        simp only [placedOf_eq, List.count_append, hp, true_and]
        by_cases hy : it = y
        · simp [hy]
          omega
        · simp [List.count_singleton', hy]
      · simp only [hgb]
        by_cases hk : getGroupKey env it gb ≠ ""
        · rw [if_pos hk]
          show (st.ordered ++ flatPG (pushGroup st.groups (getGroupKey env it gb) it)).count y = _
          have hp : placesB env r it = true := by
            simp [placesB, claimsB, hh, hg, hgb, hk]
          simp only [placedOf_eq, List.count_append, hp, true_and,
            pushGroup_flatPG_count hU y]
          by_cases hy : it = y
          · simp [hy]
            omega
          · simp [hy]
        · rw [if_neg hk]
          have hk2 : getGroupKey env it gb = "" := by simpa using hk
          have hp : placesB env r it = false := by
            simp [placesB, claimsB, hh, hg, hgb, hk2]
          simp [placedOf_eq, hp]
    · simp only [hg]
      show (st.ordered ++ flatPG (pushGroup st.groups g it)).count y = _
      have hp : placesB env r it = true := by simp [placesB, claimsB, hh, hg]
      simp only [placedOf_eq, List.count_append, hp, true_and,
        pushGroup_flatPG_count hU y]
      by_cases hy : it = y
      · simp [hy]
        omega
      · simp [hy]

theorem foldSteps_processed_eq (env : Env) (r : Rule) (items : List FSItem) :
    ∀ st : RuleState,
    (items.foldl (ruleFileStep env r) st).processed =
      st.processed ++ items.filter (claimsB env r) := by
  induction items with
  | nil => intro st; simp
  | cons it its ih =>
    intro st
    simp only [List.foldl_cons, ih, ruleFileStep_processed_eq, List.filter_cons]
    by_cases hc : claimsB env r it = true
    · simp [hc]
    · simp [hc]

theorem foldSteps_ukeys (env : Env) (r : Rule) (items : List FSItem) :
    ∀ st : RuleState, (keysOfG st.groups).Nodup →
    (keysOfG (items.foldl (ruleFileStep env r) st).groups).Nodup := by
  induction items with
  | nil => exact fun st h => h
  | cons it its ih =>
    intro st hU
    exact ih _ (ruleFileStep_ukeys env r st it hU)

theorem foldSteps_placed_count (env : Env) (r : Rule) (items : List FSItem) (y : FSItem) :
    ∀ st : RuleState, (keysOfG st.groups).Nodup →
    (placedOf (items.foldl (ruleFileStep env r) st)).count y =
      (placedOf st).count y + (items.filter (fun i => placesB env r i)).count y := by
  induction items with
  | nil => intro st _; simp
  | cons it its ih =>
    intro st hU
    simp only [List.foldl_cons]
    rw [ih _ (ruleFileStep_ukeys env r st it hU), ruleFileStep_placed_count env r st it hU y]
    simp only [List.filter_cons]
    by_cases hp : placesB env r it = true
    · by_cases hy : it = y
      · subst hy
        rw [if_pos hp, if_pos ⟨hp, rfl⟩]
        simp [List.count_cons]
        omega
      · rw [if_pos hp, if_neg (fun hc => hy hc.2)]
        simp [List.count_cons, hy]
    · rw [if_neg hp, if_neg (fun hc => hp hc.1)]
      simp

theorem ruleStep_processed_eq (env : Env) (children : List FSItem) (st : RuleState)
    (r : Rule) :
    (ruleStep env children st r).processed = st.processed ++
      ((children.filter (fun i => ¬ st.processed.contains i ∧ matchesRule env r i)).filter
        (claimsB env r)) := by
  unfold ruleStep
  exact foldSteps_processed_eq env r _ st

theorem ruleStep_ukeys (env : Env) (children : List FSItem) (st : RuleState) (r : Rule)
    (hU : (keysOfG st.groups).Nodup) :
    (keysOfG (ruleStep env children st r).groups).Nodup := by
  unfold ruleStep
  exact foldSteps_ukeys env r _ st hU

theorem ruleStep_placed_count (env : Env) (children : List FSItem) (st : RuleState)
    (r : Rule) (hU : (keysOfG st.groups).Nodup) (y : FSItem) :
    (placedOf (ruleStep env children st r)).count y =
      (placedOf st).count y +
        ((children.filter (fun i => ¬ st.processed.contains i ∧ matchesRule env r i)).filter
          (fun i => placesB env r i)).count y := by
  unfold ruleStep
  exact foldSteps_placed_count env r _ y st hU

theorem matched_count (env : Env) (children : List FSItem) (st : RuleState) (r : Rule)
    (y : FSItem) :
    (children.filter (fun i => ¬ st.processed.contains i ∧ matchesRule env r i)).count y =
      if y ∉ st.processed ∧ matchesRule env r y = true then children.count y else 0 := by
  rw [count_filter_eq]
  by_cases h1 : y ∈ st.processed <;> by_cases h2 : matchesRule env r y = true <;>
    simp [h1, h2, List.contains, List.elem_iff]

theorem count_mem_zero_iff {α : Type} [DecidableEq α] {l : List α} {a : α} :
    l.count a = 0 ↔ a ∉ l := List.count_eq_zero

theorem runRules_master (env : Env) (children : List FSItem) (y : FSItem) :
    ∀ (rules : List Rule) (st : RuleState),
    (keysOfG st.groups).Nodup →
    (placedOf st).count y ≤ st.processed.count y →
    (st.processed.count y = 0 ∨ st.processed.count y = children.count y) →
    ((keysOfG (runRules env children rules st).groups).Nodup ∧
     (placedOf (runRules env children rules st)).count y ≤
        (runRules env children rules st).processed.count y ∧
     ((runRules env children rules st).processed.count y = 0 ∨
        (runRules env children rules st).processed.count y = children.count y)) ∧
    ((∀ r ∈ rules, r.isHidden = true → matchesRule env r y = false) →
      (placedOf st).count y = st.processed.count y →
      (placedOf (runRules env children rules st)).count y =
        (runRules env children rules st).processed.count y) := by
  intro rules
  induction rules with
  | nil =>
    intro st hU hle hor
    exact ⟨⟨hU, hle, hor⟩, fun _ h => h⟩
  | cons r rs ih =>
    intro st hU hle hor
    have hU2 : (keysOfG (ruleStep env children st r).groups).Nodup :=
      ruleStep_ukeys env children st r hU
    have hpe := ruleStep_processed_eq env children st r
    have hqe := ruleStep_placed_count env children st r hU y
    -- processed delta
    have hpd : (ruleStep env children st r).processed.count y =
        st.processed.count y +
          (if claimsB env r y = true ∧ y ∉ st.processed ∧ matchesRule env r y = true then
            children.count y else 0) := by
      rw [hpe, List.count_append, count_filter_eq, matched_count]
      by_cases h1 : claimsB env r y = true <;>
        by_cases h2 : y ∉ st.processed ∧ matchesRule env r y = true <;>
          simp [h1, h2]
    -- placed delta
    have hqd : (placedOf (ruleStep env children st r)).count y =
        (placedOf st).count y +
          (if placesB env r y = true ∧ y ∉ st.processed ∧ matchesRule env r y = true then
            children.count y else 0) := by
      rw [hqe, count_filter_eq, matched_count]
      by_cases h1 : placesB env r y = true <;>
        by_cases h2 : y ∉ st.processed ∧ matchesRule env r y = true <;>
          simp [h1, h2]
    have hle2 : (placedOf (ruleStep env children st r)).count y ≤
        (ruleStep env children st r).processed.count y := by
      rw [hpd, hqd]
      have hpc : placesB env r y = true → claimsB env r y = true := by
        intro h
        simp only [placesB, Bool.and_eq_true] at h
        exact h.2
      by_cases hP : placesB env r y = true ∧ y ∉ st.processed ∧ matchesRule env r y = true
      · have hQ : claimsB env r y = true ∧ y ∉ st.processed ∧ matchesRule env r y = true :=
          ⟨hpc hP.1, hP.2⟩
        rw [if_pos hP, if_pos hQ]
        omega
      · rw [if_neg hP]
        by_cases hQ : claimsB env r y = true ∧ y ∉ st.processed ∧ matchesRule env r y = true
        · rw [if_pos hQ]; omega
        · rw [if_neg hQ]; omega
    have hor2 : (ruleStep env children st r).processed.count y = 0 ∨
        (ruleStep env children st r).processed.count y = children.count y := by
      rw [hpd]
      by_cases hmem : y ∈ st.processed
      · have : ¬ (claimsB env r y = true ∧ y ∉ st.processed ∧ matchesRule env r y = true) := by
          intro hc
          exact hc.2.1 hmem
        rw [if_neg this]
        simpa using hor
      · have h0 : st.processed.count y = 0 := count_mem_zero_iff.2 hmem
        rw [h0]
        by_cases hc : claimsB env r y = true ∧ y ∉ st.processed ∧ matchesRule env r y = true
        · rw [if_pos hc]
          simp
        · rw [if_neg hc]
          simp
    obtain ⟨hmain, hexact⟩ := ih (ruleStep env children st r) hU2 hle2 hor2
    refine ⟨hmain, ?_⟩
    intro hf heq
    refine hexact (fun q hq => hf q (List.mem_cons_of_mem _ hq)) ?_
    rw [hpd, hqd, heq]
    by_cases hh : r.isHidden = true
    · have hm0 : matchesRule env r y = false := hf r (List.mem_cons_self _ _) hh
      have c1 : ¬ (placesB env r y = true ∧ y ∉ st.processed ∧ matchesRule env r y = true) := by
        intro hc
        rw [hm0] at hc
        cases hc.2.2
      have c2 : ¬ (claimsB env r y = true ∧ y ∉ st.processed ∧ matchesRule env r y = true) := by
        intro hc
        rw [hm0] at hc
        cases hc.2.2
      rw [if_neg c1, if_neg c2]
    · have hpq : placesB env r y = claimsB env r y := by
        simp [placesB, hh]
      rw [hpq]
  -- end

theorem flatMap_perm_congr {α β : Type} {l : List α} {f g : α → List β}
    (h : ∀ a ∈ l, (f a).Perm (g a)) : (l.flatMap f).Perm (l.flatMap g) := by
  induction l with
  | nil => simp
  | cons a as ih =>
    simp only [List.flatMap_cons]
    exact (h a (List.mem_cons_self a as)).append
      (ih fun b hb => h b (List.mem_cons_of_mem a hb))

theorem flattenG_map_group (l : List String) (bod : String → List FSItem) :
    flattenG (l.map (fun k => FSItem.group k (bod k))) = l.flatMap bod := by
  induction l with
  | nil => rfl
  | cons a as ih =>
    simp only [flattenG] at ih ⊢
    simp only [List.map_cons, List.flatMap_cons, ih]
    rfl

theorem bucketOf_head (p : String × List FSItem) (rest : List (String × List FSItem)) :
    bucketOf (p :: rest) p.1 = p.2 := by
  unfold bucketOf
  rw [List.find?_cons_of_pos _ (by simp)]
  rfl

theorem bucketOf_ne (k : String) (p : String × List FSItem)
    (rest : List (String × List FSItem)) (h : p.1 ≠ k) :
    bucketOf (p :: rest) k = bucketOf rest k := by
  unfold bucketOf
  rw [List.find?_cons_of_neg _ (by simp [h])]

theorem flatMap_bucketOf (gs : List (String × List FSItem))
    (hU : (keysOfG gs).Nodup) :
    (keysOfG gs).flatMap (bucketOf gs) = flatPG gs := by
  induction gs with
  | nil => rfl
  | cons p rest ih =>
    rw [keysOfG_cons] at hU
    have hnm : p.1 ∉ keysOfG rest := (List.nodup_cons.1 hU).1
    have hU2 : (keysOfG rest).Nodup := (List.nodup_cons.1 hU).2
    rw [keysOfG_cons]
    simp only [List.flatMap_cons]
    rw [bucketOf_head]
    have hcg : (keysOfG rest).flatMap (bucketOf (p :: rest)) =
        (keysOfG rest).flatMap (bucketOf rest) :=
      flatMap_congr_mem (fun k hk => bucketOf_ne k p rest (fun hc => hnm (hc ▸ hk)))
    rw [hcg, ih hU2]
    rfl

theorem AR_eq (env : Env) (children : List FSItem) (rules : List Rule)
    (tbs tOrd : List String) (σ : Nat → FileState) :
    applyRulesToChildren env children rules tbs tOrd σ =
      (applyTiebreakers env
        ((runRules env children rules ⟨[], [], [], σ⟩).ordered ++
          (sortCmp strCmp (keysOfG (runRules env children rules ⟨[], [], [], σ⟩).groups)).map
            (fun k => FSItem.group k
              (applyTiebreakers env
                (bucketOf (runRules env children rules ⟨[], [], [], σ⟩).groups k) tbs tOrd)))
        tbs tOrd,
       children.filter
         (fun i => ¬ (runRules env children rules ⟨[], [], [], σ⟩).processed.contains i),
       (runRules env children rules ⟨[], [], [], σ⟩).sigma) := rfl

theorem AR_flat_perm (env : Env) (children : List FSItem) (rules : List Rule)
    (tbs tOrd : List String) (σ : Nat → FileState)
    (hGF : ∀ c ∈ children, c.isGroupI = false) :
    (flattenG (applyRulesToChildren env children rules tbs tOrd σ).1).Perm
      (placedOf (runRules env children rules ⟨[], [], [], σ⟩)) := by
  have hU : (keysOfG (runRules env children rules ⟨[], [], [], σ⟩).groups).Nodup :=
    (runRules_master env children (FSItem.file 0 "" "") rules ⟨[], [], [], σ⟩
      (by simp [keysOfG]) (by simp [placedOf]) (Or.inl (by simp))).1.1
  have hONG : ∀ z ∈ (runRules env children rules ⟨[], [], [], σ⟩).ordered,
      z.isGroupI = false := by
    intro z hz
    have hz2 : z ∈ placedOf (runRules env children rules ⟨[], [], [], σ⟩) :=
      List.mem_append_left _ hz
    rcases (runRules_spec env children rules ⟨[], [], [], σ⟩).2.2.1 z hz2 with h | h
    · exact absurd h (by simp [placedOf])
    · exact hGF z h
  rw [AR_eq]
  refine (flattenG_perm (applyTiebreakers_perm env _ tbs tOrd)).trans ?_
  rw [flattenG_append, flattenG_eq_of_nongroup hONG, flattenG_map_group, placedOf_eq]
  refine List.Perm.append_left _ ?_
  refine (flatMap_perm_congr (fun k hk =>
    applyTiebreakers_perm env (bucketOf (runRules env children rules ⟨[], [], [], σ⟩).groups k)
      tbs tOrd)).trans ?_
  refine ((sortCmp_perm strCmp (keysOfG (runRules env children rules ⟨[], [], [], σ⟩).groups)).flatMap_right
    (bucketOf (runRules env children rules ⟨[], [], [], σ⟩).groups)).trans ?_
  rw [flatMap_bucketOf _ hU]

theorem AR_conserv (env : Env) (children : List FSItem) (rules : List Rule)
    (tbs tOrd : List String) (σ : Nat → FileState) (y : FSItem)
    (hGF : ∀ c ∈ children, c.isGroupI = false) :
    ((flattenG (applyRulesToChildren env children rules tbs tOrd σ).1).count y +
      ((applyRulesToChildren env children rules tbs tOrd σ).2.1).count y ≤
        children.count y) ∧
    ((∀ r ∈ rules, r.isHidden = true → matchesRule env r y = false) →
      (flattenG (applyRulesToChildren env children rules tbs tOrd σ).1).count y +
        ((applyRulesToChildren env children rules tbs tOrd σ).2.1).count y =
          children.count y) := by
  obtain ⟨⟨hU, hle, hor⟩, hex⟩ := runRules_master env children y rules ⟨[], [], [], σ⟩
    (by simp [keysOfG]) (by simp [placedOf]) (Or.inl (by simp))
  have hflat : (flattenG (applyRulesToChildren env children rules tbs tOrd σ).1).count y =
      (placedOf (runRules env children rules ⟨[], [], [], σ⟩)).count y :=
    (AR_flat_perm env children rules tbs tOrd σ hGF).count_eq y
  have hrem : ((applyRulesToChildren env children rules tbs tOrd σ).2.1).count y =
      if y ∈ (runRules env children rules ⟨[], [], [], σ⟩).processed then 0
      else children.count y := by
    rw [AR_eq]
    simp only [count_filter_eq]
    by_cases hm : y ∈ (runRules env children rules ⟨[], [], [], σ⟩).processed <;>
      simp [hm, List.contains, List.elem_iff]
  by_cases hm : y ∈ (runRules env children rules ⟨[], [], [], σ⟩).processed
  · have h1 : (runRules env children rules ⟨[], [], [], σ⟩).processed.count y ≠ 0 :=
      fun hc => (count_mem_zero_iff.1 hc) hm
    have h2 : (runRules env children rules ⟨[], [], [], σ⟩).processed.count y =
        children.count y := by
      rcases hor with h | h
      · exact absurd h h1
      · exact h
    constructor
    · rw [hflat, hrem, if_pos hm]
      omega
    · intro hf
      have heq := hex hf (by simp [placedOf])
      rw [hflat, hrem, if_pos hm, heq, h2]
      omega
  · have h0 : (runRules env children rules ⟨[], [], [], σ⟩).processed.count y = 0 :=
      count_mem_zero_iff.2 hm
    have hple : (placedOf (runRules env children rules ⟨[], [], [], σ⟩)).count y = 0 := by
      omega
    constructor
    · rw [hflat, hrem, if_neg hm, hple]
      omega
    · intro _
      rw [hflat, hrem, if_neg hm, hple]
      omega

theorem AR_orig (env : Env) (children : List FSItem) (rules : List Rule)
    (tbs tOrd : List String) (σ : Nat → FileState)
    (hGF : ∀ c ∈ children, c.isGroupI = false) :
    ∀ z ∈ flattenG (applyRulesToChildren env children rules tbs tOrd σ).1, z ∈ children := by
  intro z hz
  have hz2 := (AR_flat_perm env children rules tbs tOrd σ hGF).mem_iff.1 hz
  rcases (runRules_spec env children rules ⟨[], [], [], σ⟩).2.2.1 z hz2 with h | h
  · exact absurd h (by simp [placedOf])
  · exact h

theorem AR_top_mem (env : Env) (children : List FSItem) (rules : List Rule)
    (tbs tOrd : List String) (σ : Nat → FileState) :
    ∀ z ∈ (applyRulesToChildren env children rules tbs tOrd σ).1,
      z.isGroupI = false → z ∈ children := by
  intro z hz hng
  rw [AR_eq] at hz
  have hz2 := (applyTiebreakers_perm env _ tbs tOrd).subset hz
  rcases List.mem_append.1 hz2 with h | h
  · have hz3 : z ∈ placedOf (runRules env children rules ⟨[], [], [], σ⟩) :=
      List.mem_append_left _ h
    rcases (runRules_spec env children rules ⟨[], [], [], σ⟩).2.2.1 z hz3 with h2 | h2
    · exact absurd h2 (by simp [placedOf])
    · exact h2
  · rcases List.mem_map.1 h with ⟨k, _, hk⟩
    rw [← hk] at hng
    simp [FSItem.isGroupI] at hng

theorem AR_sigma (env : Env) (children : List FSItem) (rules : List Rule)
    (tbs tOrd : List String) (σ : Nat → FileState) (i : Nat)
    (hi : i ∉ fileIdsList children) :
    (applyRulesToChildren env children rules tbs tOrd σ).2.2 i = σ i := by
  rw [AR_eq]
  exact (runRules_spec env children rules ⟨[], [], [], σ⟩ ).2.2.2.2 i hi

theorem extractFirstByName_perm :
    ∀ (cs : List FSItem) (p : String) (i : FSItem) (rest : List FSItem),
    extractFirstByName cs p = some (i, rest) → cs.Perm (i :: rest) := by
  intro cs
  induction cs with
  | nil => intro p i rest h; cases h
  | cons c cs ih =>
    intro p i rest h
    unfold extractFirstByName at h
    by_cases hc : c.name = p
    · rw [if_pos hc] at h
      simp only [Option.some.injEq, Prod.mk.injEq] at h
      obtain ⟨rfl, rfl⟩ := h
      exact List.Perm.refl _
    · rw [if_neg hc] at h
      rcases he : extractFirstByName cs p with _ | q
      · rw [he] at h
        cases h
      · rw [he] at h
        obtain ⟨j, rest2⟩ := q
        simp only [Option.some.injEq, Prod.mk.injEq] at h
        obtain ⟨rfl, rfl⟩ := h
        exact ((ih p j rest2 he).cons c).trans (List.Perm.swap j c rest2)

theorem cgm_fold_perm (pats : List String) :
    ∀ acc : List FSItem × List FSItem,
    ((pats.foldl
      (fun (acc : List FSItem × List FSItem) p =>
        match extractFirstByName acc.2 p with
        | some (item, rest) => (acc.1 ++ [item], rest)
        | none => acc) acc).1 ++
     (pats.foldl
      (fun (acc : List FSItem × List FSItem) p =>
        match extractFirstByName acc.2 p with
        | some (item, rest) => (acc.1 ++ [item], rest)
        | none => acc) acc).2).Perm (acc.1 ++ acc.2) := by
  induction pats with
  | nil => intro acc; exact List.Perm.refl _
  | cons p ps ih =>
    intro acc
    simp only [List.foldl_cons]
    rcases he : extractFirstByName acc.2 p with _ | q
    · simp only [he]
      exact ih acc
    · obtain ⟨i, rest⟩ := q
      simp only [he]
      refine (ih (acc.1 ++ [i], rest)).trans ?_
      have h1 : (acc.1 ++ [i]) ++ rest = acc.1 ++ (i :: rest) := by
        simp
      rw [h1]
      exact List.Perm.append_left acc.1 (extractFirstByName_perm acc.2 p i rest he).symm

theorem collectGroupMembers_perm (pats : List String) (cs : List FSItem) :
    ((collectGroupMembers pats cs).1 ++ (collectGroupMembers pats cs).2).Perm cs := by
  have h := cgm_fold_perm pats ([], cs)
  simpa [collectGroupMembers] using h

theorem gbp_fold_perm (stmts : List Statement) :
    ∀ acc : List FSItem × List FSItem,
    (flattenG (stmts.foldl
      (fun (acc : List FSItem × List FSItem) s =>
        match s with
        | .groupBlock gname block =>
          if (collectGroupMembers (block.map stmtPattern) acc.2).1 ≠ [] then
            (acc.1 ++ [FSItem.group gname (collectGroupMembers (block.map stmtPattern) acc.2).1],
             (collectGroupMembers (block.map stmtPattern) acc.2).2)
          else (acc.1, (collectGroupMembers (block.map stmtPattern) acc.2).2)
        | _ => acc) acc).1 ++
     (stmts.foldl
      (fun (acc : List FSItem × List FSItem) s =>
        match s with
        | .groupBlock gname block =>
          if (collectGroupMembers (block.map stmtPattern) acc.2).1 ≠ [] then
            (acc.1 ++ [FSItem.group gname (collectGroupMembers (block.map stmtPattern) acc.2).1],
             (collectGroupMembers (block.map stmtPattern) acc.2).2)
          else (acc.1, (collectGroupMembers (block.map stmtPattern) acc.2).2)
        | _ => acc) acc).2).Perm (flattenG acc.1 ++ acc.2) := by
  induction stmts with
  | nil => intro acc; exact List.Perm.refl _
  | cons s ss ih =>
    intro acc
    simp only [List.foldl_cons]
    cases s with
    | filePattern p ds => exact ih acc
    | directiveS d => exact ih acc
    | pathBlock p ds blk => exact ih acc
    | groupBlock gname block =>
      dsimp only
      have hperm := collectGroupMembers_perm (block.map stmtPattern) acc.2
      by_cases hm : (collectGroupMembers (block.map stmtPattern) acc.2).1 ≠ []
      · rw [if_pos hm]
        refine (ih _).trans ?_
        rw [flattenG_append]
        have h2 : flattenG [FSItem.group gname (collectGroupMembers (block.map stmtPattern) acc.2).1] =
            (collectGroupMembers (block.map stmtPattern) acc.2).1 := by
          simp [flattenG, expandG]
        rw [h2, List.append_assoc]
        exact List.Perm.append_left _ hperm
      · rw [if_neg hm]
        refine (ih _).trans ?_
        have h0 : (collectGroupMembers (block.map stmtPattern) acc.2).1 = [] := by
          simpa using hm
        rw [h0] at hperm
        exact List.Perm.append_left _ (by simpa using hperm)

theorem groupBlockPass_perm (stmts : List Statement) (children : List FSItem) :
    (flattenG (groupBlockPass stmts children).1 ++
      (groupBlockPass stmts children).2).Perm children := by
  have h := gbp_fold_perm stmts ([], children)
  exact h

theorem ep_inner_spec (pat : String) :
    ∀ (cs : List FSItem) (acc2 : List FSItem × List FSItem), acc2.1 = acc2.2 →
    ((cs.foldl
        (fun (acc2 : List FSItem × List FSItem) item =>
          if ¬ acc2.2.contains item ∧ minimatch item.name pat then
            (acc2.1 ++ [item], acc2.2 ++ [item])
          else acc2) acc2).1 =
      (cs.foldl
        (fun (acc2 : List FSItem × List FSItem) item =>
          if ¬ acc2.2.contains item ∧ minimatch item.name pat then
            (acc2.1 ++ [item], acc2.2 ++ [item])
          else acc2) acc2).2) ∧
    (acc2.2.Nodup →
      (cs.foldl
        (fun (acc2 : List FSItem × List FSItem) item =>
          if ¬ acc2.2.contains item ∧ minimatch item.name pat then
            (acc2.1 ++ [item], acc2.2 ++ [item])
          else acc2) acc2).2.Nodup) ∧
    (∀ y ∈ (cs.foldl
        (fun (acc2 : List FSItem × List FSItem) item =>
          if ¬ acc2.2.contains item ∧ minimatch item.name pat then
            (acc2.1 ++ [item], acc2.2 ++ [item])
          else acc2) acc2).2, y ∈ acc2.2 ∨ y ∈ cs) ∧
    (∀ y ∈ acc2.2, y ∈ (cs.foldl
        (fun (acc2 : List FSItem × List FSItem) item =>
          if ¬ acc2.2.contains item ∧ minimatch item.name pat then
            (acc2.1 ++ [item], acc2.2 ++ [item])
          else acc2) acc2).2) := by
  intro cs
  induction cs with
  | nil =>
    intro acc2 he
    exact ⟨he, fun h => h, fun y hy => Or.inl hy, fun y hy => hy⟩
  | cons c cs ih =>
    intro acc2 he
    simp only [List.foldl_cons]
    by_cases hc : ¬ acc2.2.contains c ∧ minimatch c.name pat
    · rw [if_pos hc]
      have he2 : (acc2.1 ++ [c], acc2.2 ++ [c]).1 = (acc2.1 ++ [c], acc2.2 ++ [c]).2 := by
        simp [he]
      obtain ⟨i1, i2, i3, i4⟩ := ih (acc2.1 ++ [c], acc2.2 ++ [c]) he2
      refine ⟨i1, ?_, ?_, ?_⟩
      · intro hnd
        refine i2 ?_
        have hnc : c ∉ acc2.2 := by
          have := hc.1
          simpa [List.contains, List.elem_iff] using this
        simpa [List.nodup_append] using ⟨hnd, hnc⟩
      · intro y hy
        rcases i3 y hy with hy | hy
        · rcases List.mem_append.1 hy with hy | hy
          · exact Or.inl hy
          · exact Or.inr (List.mem_cons.2 (Or.inl (List.mem_singleton.1 hy)))
        · exact Or.inr (List.mem_cons_of_mem c hy)
      · intro y hy
        exact i4 y (List.mem_append_left _ hy)
    · rw [if_neg hc]
      obtain ⟨i1, i2, i3, i4⟩ := ih acc2 he
      refine ⟨i1, i2, ?_, i4⟩
      intro y hy
      rcases i3 y hy with hy | hy
      · exact Or.inl hy
      · exact Or.inr (List.mem_cons_of_mem c hy)

theorem ep_spec (eo : List String) (children : List FSItem) :
    (explicitPass eo children).1 = (explicitPass eo children).2 ∧
    (explicitPass eo children).2.Nodup ∧
    (∀ y ∈ (explicitPass eo children).2, y ∈ children) := by
  suffices h : ∀ (ps : List String) (acc : List FSItem × List FSItem),
      acc.1 = acc.2 → acc.2.Nodup → (∀ y ∈ acc.2, y ∈ children) →
      ((ps.foldl
        (fun (acc : List FSItem × List FSItem) pat =>
          children.foldl
            (fun (acc2 : List FSItem × List FSItem) item =>
              if ¬ acc2.2.contains item ∧ minimatch item.name pat then
                (acc2.1 ++ [item], acc2.2 ++ [item])
              else acc2) acc) acc).1 =
       (ps.foldl
        (fun (acc : List FSItem × List FSItem) pat =>
          children.foldl
            (fun (acc2 : List FSItem × List FSItem) item =>
              if ¬ acc2.2.contains item ∧ minimatch item.name pat then
                (acc2.1 ++ [item], acc2.2 ++ [item])
              else acc2) acc) acc).2 ∧
       (ps.foldl
        (fun (acc : List FSItem × List FSItem) pat =>
          children.foldl
            (fun (acc2 : List FSItem × List FSItem) item =>
              if ¬ acc2.2.contains item ∧ minimatch item.name pat then
                (acc2.1 ++ [item], acc2.2 ++ [item])
              else acc2) acc) acc).2.Nodup ∧
       (∀ y ∈ (ps.foldl
        (fun (acc : List FSItem × List FSItem) pat =>
          children.foldl
            (fun (acc2 : List FSItem × List FSItem) item =>
              if ¬ acc2.2.contains item ∧ minimatch item.name pat then
                (acc2.1 ++ [item], acc2.2 ++ [item])
              else acc2) acc) acc).2, y ∈ children)) by
    exact h eo ([], []) rfl List.nodup_nil (by simp)
  intro ps
  induction ps with
  | nil => exact fun acc h1 h2 h3 => ⟨h1, h2, h3⟩
  | cons p ps ih =>
    intro acc h1 h2 h3
    simp only [List.foldl_cons]
    obtain ⟨i1, i2, i3, _⟩ := ep_inner_spec p children acc h1
    refine ih _ i1 (i2 h2) ?_
    intro y hy
    rcases i3 y hy with hy | hy
    · exact h3 y hy
    · exact hy

theorem ep_count (eo : List String) (cs : List FSItem) (y : FSItem) :
    ((explicitPass eo cs).1.count y +
      (cs.filter (fun i => ¬ (explicitPass eo cs).2.contains i)).count y ≤ cs.count y) ∧
    (cs.Nodup →
      (explicitPass eo cs).1.count y +
        (cs.filter (fun i => ¬ (explicitPass eo cs).2.contains i)).count y = cs.count y) := by
  obtain ⟨he, hnd, hsub⟩ := ep_spec eo cs
  by_cases hm : y ∈ (explicitPass eo cs).2
  · have hy : y ∈ cs := hsub y hm
    have hc0 : (explicitPass eo cs).1.count y = 1 := by
      rw [he]
      have h1 := List.nodup_iff_count_le_one.1 hnd y
      have h2 : (explicitPass eo cs).2.count y ≠ 0 := fun hc => (count_mem_zero_iff.1 hc) hm
      omega
    have hf0 : (cs.filter (fun i => ¬ (explicitPass eo cs).2.contains i)).count y = 0 := by
      rw [count_filter_eq, if_neg]
      simp [List.contains, List.elem_iff, hm]
    have hcy : cs.count y ≠ 0 := fun hc => (count_mem_zero_iff.1 hc) hy
    refine ⟨by rw [hc0, hf0]; omega, ?_⟩
    intro hndc
    have := List.nodup_iff_count_le_one.1 hndc y
    rw [hc0, hf0]
    omega
  · have hc0 : (explicitPass eo cs).1.count y = 0 := by
      rw [he]
      exact count_mem_zero_iff.2 hm
    have hf0 : (cs.filter (fun i => ¬ (explicitPass eo cs).2.contains i)).count y =
        cs.count y := by
      rw [count_filter_eq, if_pos]
      simp [List.contains, List.elem_iff, hm]
    exact ⟨by rw [hc0, hf0]; omega, fun _ => by rw [hc0, hf0]; omega⟩

theorem fileIds_decomp {i : Nat} :
    ∀ {l : List FSItem}, i ∈ fileIdsList l → ∃ c ∈ l, i ∈ fileIdsItem c := by
  intro l
  induction l with
  | nil => intro h; cases h
  | cons c cs ih =>
    intro h
    rcases List.mem_append.1 (by simpa [fileIdsList] using h) with h | h
    · exact ⟨c, List.mem_cons_self c cs, h⟩
    · obtain ⟨d, hd, hi⟩ := ih h
      exact ⟨d, List.mem_cons_of_mem c hd, hi⟩

theorem fileIds_flattenG (l : List FSItem) :
    fileIdsList (flattenG l) = fileIdsList l := by
  induction l with
  | nil => rfl
  | cons c cs ih =>
    have h1 : flattenG (c :: cs) = expandG c ++ flattenG cs := by
      simp [flattenG]
    rw [h1, fileIdsList_append, ih]
    have h2 : fileIdsList (expandG c) = fileIdsItem c := by
      cases c <;> simp [expandG, fileIdsList, fileIdsItem]
    rw [h2]
    rfl

theorem gbp_top_group (stmts : List Statement) (children : List FSItem) :
    ∀ z ∈ (groupBlockPass stmts children).1, z.isGroupI = true := by
  suffices h : ∀ (ss : List Statement) (acc : List FSItem × List FSItem),
      (∀ z ∈ acc.1, z.isGroupI = true) →
      ∀ z ∈ (ss.foldl
        (fun (acc : List FSItem × List FSItem) s =>
          match s with
          | .groupBlock gname block =>
            if (collectGroupMembers (block.map stmtPattern) acc.2).1 ≠ [] then
              (acc.1 ++ [FSItem.group gname (collectGroupMembers (block.map stmtPattern) acc.2).1],
               (collectGroupMembers (block.map stmtPattern) acc.2).2)
            else (acc.1, (collectGroupMembers (block.map stmtPattern) acc.2).2)
          | _ => acc) acc).1, z.isGroupI = true by
    exact h stmts ([], children) (by simp)
  intro ss
  induction ss with
  | nil => exact fun acc h => h
  | cons s ss ih =>
    intro acc hacc
    simp only [List.foldl_cons]
    cases s with
    | filePattern p ds => exact ih acc hacc
    | directiveS d => exact ih acc hacc
    | pathBlock p ds blk => exact ih acc hacc
    | groupBlock gname block =>
      dsimp only
      by_cases hm : (collectGroupMembers (block.map stmtPattern) acc.2).1 ≠ []
      · rw [if_pos hm]
        refine ih _ ?_
        intro z hz
        rcases List.mem_append.1 hz with hz | hz
        · exact hacc z hz
        · rw [List.mem_singleton.1 hz]
          rfl
      · rw [if_neg hm]
        exact ih _ hacc

theorem processChildren_eq (env : Env) (children : List FSItem) (stmts : List Statement)
    (basePath : String) (itbs : Option (List String)) (σ : Nat → FileState) :
    processChildren env children stmts basePath itbs σ =
      ((((groupBlockPass stmts children).1 ++
        (explicitPass (processStatements stmts basePath).explicitOrder
            (groupBlockPass stmts children).2).1) ++
          (applyRulesToChildren env
              ((groupBlockPass stmts children).2.filter
                (fun i => ¬ (explicitPass (processStatements stmts basePath).explicitOrder
                  (groupBlockPass stmts children).2).2.contains i))
              (processStatements stmts basePath).rules
              (itbs.getD (processStatements stmts basePath).tiebreakers)
              (processStatements stmts basePath).typeOrder σ).1) ++
            applyTiebreakers env
              (applyRulesToChildren env
                ((groupBlockPass stmts children).2.filter
                  (fun i => ¬ (explicitPass (processStatements stmts basePath).explicitOrder
                    (groupBlockPass stmts children).2).2.contains i))
                (processStatements stmts basePath).rules
                (itbs.getD (processStatements stmts basePath).tiebreakers)
                (processStatements stmts basePath).typeOrder σ).2.1
              (itbs.getD (processStatements stmts basePath).tiebreakers)
              (processStatements stmts basePath).typeOrder,
       (applyRulesToChildren env
          ((groupBlockPass stmts children).2.filter
            (fun i => ¬ (explicitPass (processStatements stmts basePath).explicitOrder
              (groupBlockPass stmts children).2).2.contains i))
          (processStatements stmts basePath).rules
          (itbs.getD (processStatements stmts basePath).tiebreakers)
          (processStatements stmts basePath).typeOrder σ).2.2) := by
  rfl

theorem processChildren_count (env : Env) (children : List FSItem) (stmts : List Statement)
    (basePath : String) (itbs : Option (List String)) (σ : Nat → FileState) (y : FSItem)
    (hGF : ∀ c ∈ children, c.isGroupI = false) :
    ((flattenG (processChildren env children stmts basePath itbs σ).1).count y ≤
      children.count y) ∧
    (children.Nodup →
      (∀ r ∈ (processStatements stmts basePath).rules,
        r.isHidden = true → matchesRule env r y = false) →
      (flattenG (processChildren env children stmts basePath itbs σ).1).count y =
        children.count y) := by
  have hperm := groupBlockPass_perm stmts children
  have hcnt : (flattenG (groupBlockPass stmts children).1).count y +
      (groupBlockPass stmts children).2.count y = children.count y := by
    have h := hperm.count_eq y
    simpa [List.count_append] using h
  have hmem1 : ∀ z ∈ (groupBlockPass stmts children).2, z ∈ children :=
    fun z hz => hperm.subset (List.mem_append_right _ hz)
  have hGF1 : ∀ c ∈ (groupBlockPass stmts children).2, c.isGroupI = false :=
    fun c hc => hGF c (hmem1 c hc)
  obtain ⟨he, hndE, hsubE⟩ :=
    ep_spec (processStatements stmts basePath).explicitOrder (groupBlockPass stmts children).2
  obtain ⟨hepLe, hepEq⟩ :=
    ep_count (processStatements stmts basePath).explicitOrder
      (groupBlockPass stmts children).2 y
  have hGFR : ∀ c ∈ (groupBlockPass stmts children).2.filter
      (fun i => ¬ (explicitPass (processStatements stmts basePath).explicitOrder
        (groupBlockPass stmts children).2).2.contains i), c.isGroupI = false :=
    fun c hc => hGF1 c (List.mem_of_mem_filter hc)
  obtain ⟨hARLe, hAREq⟩ := AR_conserv env
    ((groupBlockPass stmts children).2.filter
      (fun i => ¬ (explicitPass (processStatements stmts basePath).explicitOrder
        (groupBlockPass stmts children).2).2.contains i))
    (processStatements stmts basePath).rules
    (itbs.getD (processStatements stmts basePath).tiebreakers)
    (processStatements stmts basePath).typeOrder σ y hGFR
  have hcE : (flattenG (explicitPass (processStatements stmts basePath).explicitOrder
      (groupBlockPass stmts children).2).1).count y =
      (explicitPass (processStatements stmts basePath).explicitOrder
        (groupBlockPass stmts children).2).1.count y := by
    rw [flattenG_eq_of_nongroup]
    intro z hz
    rw [he] at hz
    exact hGF1 z (hsubE z hz)
  have hsubR : ∀ z ∈ (applyRulesToChildren env
      ((groupBlockPass stmts children).2.filter
        (fun i => ¬ (explicitPass (processStatements stmts basePath).explicitOrder
          (groupBlockPass stmts children).2).2.contains i))
      (processStatements stmts basePath).rules
      (itbs.getD (processStatements stmts basePath).tiebreakers)
      (processStatements stmts basePath).typeOrder σ).2.1,
      z.isGroupI = false := by
    intro z hz
    rw [AR_eq] at hz
    exact hGFR z (List.mem_of_mem_filter hz)
  have hcS : (flattenG (applyTiebreakers env
      (applyRulesToChildren env
        ((groupBlockPass stmts children).2.filter
          (fun i => ¬ (explicitPass (processStatements stmts basePath).explicitOrder
            (groupBlockPass stmts children).2).2.contains i))
        (processStatements stmts basePath).rules
        (itbs.getD (processStatements stmts basePath).tiebreakers)
        (processStatements stmts basePath).typeOrder σ).2.1
      (itbs.getD (processStatements stmts basePath).tiebreakers)
      (processStatements stmts basePath).typeOrder)).count y =
      (applyRulesToChildren env
        ((groupBlockPass stmts children).2.filter
          (fun i => ¬ (explicitPass (processStatements stmts basePath).explicitOrder
            (groupBlockPass stmts children).2).2.contains i))
        (processStatements stmts basePath).rules
        (itbs.getD (processStatements stmts basePath).tiebreakers)
        (processStatements stmts basePath).typeOrder σ).2.1.count y := by
    rw [(flattenG_perm (applyTiebreakers_perm env _ _ _)).count_eq,
      flattenG_eq_of_nongroup hsubR]
  have hsplit : (flattenG (processChildren env children stmts basePath itbs σ).1).count y =
      (flattenG (groupBlockPass stmts children).1).count y +
      ((explicitPass (processStatements stmts basePath).explicitOrder
        (groupBlockPass stmts children).2).1.count y +
       ((flattenG (applyRulesToChildren env
          ((groupBlockPass stmts children).2.filter
            (fun i => ¬ (explicitPass (processStatements stmts basePath).explicitOrder
              (groupBlockPass stmts children).2).2.contains i))
          (processStatements stmts basePath).rules
          (itbs.getD (processStatements stmts basePath).tiebreakers)
          (processStatements stmts basePath).typeOrder σ).1).count y +
        (applyRulesToChildren env
          ((groupBlockPass stmts children).2.filter
            (fun i => ¬ (explicitPass (processStatements stmts basePath).explicitOrder
              (groupBlockPass stmts children).2).2.contains i))
          (processStatements stmts basePath).rules
          (itbs.getD (processStatements stmts basePath).tiebreakers)
          (processStatements stmts basePath).typeOrder σ).2.1.count y)) := by
    rw [processChildren_eq]
    simp only [flattenG_append, List.count_append, hcE, hcS]
    omega
  constructor
  · rw [hsplit]
    omega
  · intro hnd hf
    have hnd1 : (groupBlockPass stmts children).2.Nodup := by
      rw [List.nodup_iff_count_le_one]
      intro z
      have h1 := List.nodup_iff_count_le_one.1 hnd z
      have h2 : (flattenG (groupBlockPass stmts children).1).count z +
          (groupBlockPass stmts children).2.count z = children.count z := by
        have h := hperm.count_eq z
        simpa [List.count_append] using h
      omega
    have he1 := hepEq hnd1
    have he2 := hAREq hf
    rw [hsplit]
    omega

theorem processChildren_orig (env : Env) (children : List FSItem) (stmts : List Statement)
    (basePath : String) (itbs : Option (List String)) (σ : Nat → FileState)
    (hGF : ∀ c ∈ children, c.isGroupI = false) :
    ∀ z ∈ flattenG (processChildren env children stmts basePath itbs σ).1, z ∈ children := by
  intro z hz
  have h1 : (flattenG (processChildren env children stmts basePath itbs σ).1).count z ≠ 0 :=
    fun hc => (count_mem_zero_iff.1 hc) hz
  have h2 := (processChildren_count env children stmts basePath itbs σ z hGF).1
  have h3 : children.count z ≠ 0 := by omega
  by_contra hcon
  exact h3 (count_mem_zero_iff.2 hcon)

theorem processChildren_top_mem (env : Env) (children : List FSItem)
    (stmts : List Statement) (basePath : String) (itbs : Option (List String))
    (σ : Nat → FileState) :
    ∀ z ∈ (processChildren env children stmts basePath itbs σ).1,
      z.isGroupI = false → z ∈ children := by
  intro z hz hng
  rw [processChildren_eq] at hz
  have hperm := groupBlockPass_perm stmts children
  have hmem1 : ∀ w ∈ (groupBlockPass stmts children).2, w ∈ children :=
    fun w hw => hperm.subset (List.mem_append_right _ hw)
  obtain ⟨he, _, hsubE⟩ :=
    ep_spec (processStatements stmts basePath).explicitOrder (groupBlockPass stmts children).2
  rcases List.mem_append.1 hz with hz | hz
  · rcases List.mem_append.1 hz with hz | hz
    · rcases List.mem_append.1 hz with hz | hz
      · exact absurd (gbp_top_group stmts children z hz) (by rw [hng]; simp)
      · rw [he] at hz
        exact hmem1 z (hsubE z hz)
    · have := AR_top_mem env _ _ _ _ σ z hz hng
      exact hmem1 z (List.mem_of_mem_filter this)
  · have hz2 := (applyTiebreakers_perm env _ _ _).subset hz
    rw [AR_eq] at hz2
    exact hmem1 z (List.mem_of_mem_filter (List.mem_of_mem_filter hz2))

theorem processChildren_sigma (env : Env) (children : List FSItem)
    (stmts : List Statement) (basePath : String) (itbs : Option (List String))
    (σ : Nat → FileState) (i : Nat) (hi : i ∉ fileIdsList children) :
    (processChildren env children stmts basePath itbs σ).2 i = σ i := by
  have hids : i ∉ fileIdsList ((groupBlockPass stmts children).2.filter
      (fun q => ¬ (explicitPass (processStatements stmts basePath).explicitOrder
        (groupBlockPass stmts children).2).2.contains q)) := by
    intro hcon
    obtain ⟨c, hc, hic⟩ := fileIds_decomp hcon
    have hc2 : c ∈ children :=
      (groupBlockPass_perm stmts children).subset
        (List.mem_append_right _ (List.mem_of_mem_filter hc))
    exact hi (mem_fileIdsList_of_mem hc2 hic)
  rw [processChildren_eq]
  exact AR_sigma env
    ((groupBlockPass stmts children).2.filter
      (fun q => ¬ (explicitPass (processStatements stmts basePath).explicitOrder
        (groupBlockPass stmts children).2).2.contains q))
    (processStatements stmts basePath).rules
    (itbs.getD (processStatements stmts basePath).tiebreakers)
    (processStatements stmts basePath).typeOrder σ i hids

theorem groupFreeList_mem {cs : List FSItem} (h : groupFreeList cs = true) :
    ∀ c ∈ cs, groupFreeItem c = true := by
  induction cs with
  | nil => intro c hc; cases hc
  | cons d ds ih =>
    intro c hc
    simp only [groupFreeList, Bool.and_eq_true] at h
    rcases hc with _ | hc
    · exact h.1
    · exact ih h.2 c (by assumption)

theorem groupFreeItem_not_group {c : FSItem} (h : groupFreeItem c = true) :
    c.isGroupI = false := by
  cases c <;> simp_all [groupFreeItem, FSItem.isGroupI]

theorem pathBlockPass_eq (env : Env) (children : List FSItem) (basePath : String)
    (pathBlocks : List Statement) (σ : Nat → FileState) :
    pathBlockPass env children basePath pathBlocks σ =
      pathBlocks.foldl (pbpStep env children basePath) ([], [], σ) := by
  rfl

theorem pbp_processed_mono (env : Env) (children : List FSItem) (basePath : String) :
    ∀ (pbs : List Statement) (acc : List FSItem × List FSItem × (Nat → FileState)),
    ∀ z ∈ acc.2.1, z ∈ (pbs.foldl (pbpStep env children basePath) acc).2.1 := by
  intro pbs
  induction pbs with
  | nil => exact fun acc z hz => hz
  | cons b rest ih =>
    intro acc z hz
    simp only [List.foldl_cons]
    refine ih _ z ?_
    cases b with
    | pathBlock bpat bdirs bblock =>
      simp only [pbpStep]
      by_cases hm : pbpMatching env children basePath acc.2.1 bpat ≠ []
      · rw [if_pos hm]
        exact List.mem_append_left _ hz
      · rw [if_neg hm]
        exact hz
    | filePattern p ds => exact hz
    | directiveS d => exact hz
    | groupBlock g blk => exact hz

theorem pbp_claimed_match (env : Env) (children : List FSItem) (basePath : String) :
    ∀ (pbs : List Statement) (acc : List FSItem × List FSItem × (Nat → FileState))
      (y : FSItem), y ∈ (pbs.foldl (pbpStep env children basePath) acc).2.1 →
    y ∈ acc.2.1 ∨ ∃ b ∈ pbs, matchesBlockB env basePath b y = true := by
  intro pbs
  induction pbs with
  | nil => exact fun acc y hy => Or.inl hy
  | cons b rest ih =>
    intro acc y hy
    simp only [List.foldl_cons] at hy
    rcases ih _ y hy with hy2 | hy2
    · cases b with
      | pathBlock bpat bdirs bblock =>
        simp only [pbpStep] at hy2
        by_cases hm : pbpMatching env children basePath acc.2.1 bpat ≠ []
        · rw [if_pos hm] at hy2
          rcases List.mem_append.1 hy2 with hy3 | hy3
          · exact Or.inl hy3
          · refine Or.inr ⟨.pathBlock bpat bdirs bblock, List.mem_cons_self _ _, ?_⟩
            have := (List.mem_filter.1 hy3).2
            simp only [Bool.and_eq_true, decide_eq_true_eq] at this
            simpa [matchesBlockB, pbPattern] using this.2
        · rw [if_neg hm] at hy2
          exact Or.inl hy2
      | filePattern p ds => exact Or.inl hy2
      | directiveS d => exact Or.inl hy2
      | groupBlock g blk => exact Or.inl hy2
    · obtain ⟨b2, hb2, hmb⟩ := hy2
      exact Or.inr ⟨b2, List.mem_cons_of_mem b hb2, hmb⟩

theorem pbp_covers (env : Env) (children : List FSItem) (basePath : String) :
    ∀ (pbs : List Statement) (acc : List FSItem × List FSItem × (Nat → FileState))
      (y : FSItem), y ∈ children → (∀ b ∈ pbs, isPathBlockS b = true) →
    (y ∈ acc.2.1 ∨ ((pbs.find? (fun b => matchesBlockB env basePath b y)).isSome = true)) →
    y ∈ (pbs.foldl (pbpStep env children basePath) acc).2.1 := by
  intro pbs
  induction pbs with
  | nil =>
    intro acc y _ _ hy
    rcases hy with hy | hy
    · exact hy
    · simp [List.find?] at hy
  | cons b rest ih =>
    intro acc y hyc hAll hy
    simp only [List.foldl_cons]
    have hstep : ∀ z ∈ acc.2.1, z ∈ (pbpStep env children basePath acc b).2.1 := by
      intro z hz
      cases b with
      | pathBlock bpat bdirs bblock =>
        simp only [pbpStep]
        by_cases hm : pbpMatching env children basePath acc.2.1 bpat ≠ []
        · rw [if_pos hm]
          exact List.mem_append_left _ hz
        · rw [if_neg hm]
          exact hz
      | filePattern p ds => exact hz
      | directiveS d => exact hz
      | groupBlock g blk => exact hz
    rcases hy with hy | hy
    · exact ih _ y hyc (fun b2 hb2 => hAll b2 (List.mem_cons_of_mem b hb2))
        (Or.inl (hstep y hy))
    · by_cases hm : matchesBlockB env basePath b y = true
      · by_cases hacc : y ∈ acc.2.1
        · exact ih _ y hyc (fun b2 hb2 => hAll b2 (List.mem_cons_of_mem b hb2))
            (Or.inl (hstep y hacc))
        · cases b with
          | pathBlock bpat bdirs bblock =>
            have hym : y ∈ pbpMatching env children basePath acc.2.1 bpat := by
              refine List.mem_filter.2 ⟨hyc, ?_⟩
              simp only [Bool.and_eq_true, decide_eq_true_eq]
              refine ⟨by simpa [List.contains, List.elem_iff] using hacc, ?_⟩
              simpa [matchesBlockB, pbPattern] using hm
            have hne : pbpMatching env children basePath acc.2.1 bpat ≠ [] :=
              List.ne_nil_of_mem hym
            refine ih _ y hyc (fun b2 hb2 => hAll b2 (List.mem_cons_of_mem _ hb2)) ?_
            refine Or.inl ?_
            simp only [pbpStep]
            rw [if_pos hne]
            exact List.mem_append_right _ hym
          | filePattern p ds =>
            exact absurd (hAll _ (List.mem_cons_self _ _)) (by simp [isPathBlockS])
          | directiveS d =>
            exact absurd (hAll _ (List.mem_cons_self _ _)) (by simp [isPathBlockS])
          | groupBlock g blk =>
            exact absurd (hAll _ (List.mem_cons_self _ _)) (by simp [isPathBlockS])
      · have hfr : (rest.find? (fun b2 => matchesBlockB env basePath b2 y)).isSome = true := by
          rw [List.find?_cons_of_neg _ (by simpa using hm)] at hy
          exact hy
        exact ih _ y hyc (fun b2 hb2 => hAll b2 (List.mem_cons_of_mem b hb2)) (Or.inr hfr)

theorem pbp_matching_split (env : Env) (children : List FSItem) (basePath : String)
    (processed : List FSItem) (bpat : String) (y : FSItem) :
    (pbpMatching env children basePath processed bpat).count y +
      (children.filter
        (fun c => ¬ (processed ++ pbpMatching env children basePath processed bpat).contains c)).count y =
      (children.filter (fun c => ¬ processed.contains c)).count y := by
  have hmemM : y ∈ pbpMatching env children basePath processed bpat ↔
      (y ∈ children ∧ y ∉ processed ∧
        matchBlockPattern env (createPattern bpat basePath) (pathJoin basePath y.name) = true) := by
    simp [pbpMatching, List.mem_filter, List.contains, List.elem_iff]
  have hA : (pbpMatching env children basePath processed bpat).count y =
      if y ∉ processed ∧ matchBlockPattern env (createPattern bpat basePath)
          (pathJoin basePath y.name) = true then children.count y else 0 := by
    rw [pbpMatching, count_filter_eq]
    by_cases hq : y ∉ processed ∧ matchBlockPattern env (createPattern bpat basePath)
        (pathJoin basePath y.name) = true
    · rw [if_pos (by simp [List.contains, List.elem_iff, hq.1, hq.2]), if_pos hq]
    · rw [if_neg ?_, if_neg hq]
      intro hc
      simp only [Bool.and_eq_true, decide_eq_true_eq] at hc
      refine hq ⟨?_, hc.2⟩
      simpa [List.contains, List.elem_iff] using hc.1
  have hB : (children.filter
      (fun c => ¬ (processed ++ pbpMatching env children basePath processed bpat).contains c)).count y =
      if y ∈ processed ∨ y ∈ pbpMatching env children basePath processed bpat then 0
      else children.count y := by
    rw [count_filter_eq]
    by_cases hq : y ∈ processed ∨ y ∈ pbpMatching env children basePath processed bpat
    · rw [if_neg (by simp [List.contains, List.elem_iff, List.mem_append]; tauto), if_pos hq]
    · rw [if_pos (by simp [List.contains, List.elem_iff, List.mem_append]; tauto), if_neg hq]
  have hC : (children.filter (fun c => ¬ processed.contains c)).count y =
      if y ∈ processed then 0 else children.count y := by
    rw [count_filter_eq]
    by_cases hq : y ∈ processed
    · rw [if_neg (by simp [List.contains, List.elem_iff, hq]), if_pos hq]
    · rw [if_pos (by simp [List.contains, List.elem_iff, hq]), if_neg hq]
  rw [hA, hB, hC]
  by_cases h1 : y ∈ processed
  · rw [if_neg (fun hc => hc.1 h1), if_pos (Or.inl h1), if_pos h1]
  · by_cases h2 : matchBlockPattern env (createPattern bpat basePath)
        (pathJoin basePath y.name) = true
    · by_cases h3 : y ∈ children
      · rw [if_pos ⟨h1, h2⟩, if_pos (Or.inr (hmemM.2 ⟨h3, h1, h2⟩)), if_neg h1]
        omega
      · have h0 : children.count y = 0 := count_mem_zero_iff.2 h3
        rw [if_pos ⟨h1, h2⟩,
          if_neg (fun hc => by rcases hc with hc | hc; exact h1 hc; exact h3 (hmemM.1 hc).1),
          if_neg h1]
        omega
    · rw [if_neg (fun hc => h2 hc.2),
        if_neg (fun hc => by rcases hc with hc | hc; exact h1 hc; exact h2 (hmemM.1 hc).2.2),
        if_neg h1]
      omega

theorem pbp_le (env : Env) (children : List FSItem) (basePath : String)
    (hGF : ∀ c ∈ children, c.isGroupI = false) (y : FSItem) :
    ∀ (pbs : List Statement) (acc : List FSItem × List FSItem × (Nat → FileState)),
    (flattenG (pbs.foldl (pbpStep env children basePath) acc).1).count y +
      (children.filter
        (fun c => ¬ (pbs.foldl (pbpStep env children basePath) acc).2.1.contains c)).count y ≤
    (flattenG acc.1).count y +
      (children.filter (fun c => ¬ acc.2.1.contains c)).count y := by
  intro pbs
  induction pbs with
  | nil => exact fun acc => le_refl _
  | cons b rest ih =>
    intro acc
    simp only [List.foldl_cons]
    refine (ih (pbpStep env children basePath acc b)).trans ?_
    cases b with
    | pathBlock bpat bdirs bblock =>
      by_cases hm : pbpMatching env children basePath acc.2.1 bpat ≠ []
      · have hstepEq : pbpStep env children basePath acc (.pathBlock bpat bdirs bblock) =
            (acc.1 ++ (processChildren env (pbpMatching env children basePath acc.2.1 bpat)
                bblock basePath (blockTbsOf bdirs) acc.2.2).1,
             acc.2.1 ++ pbpMatching env children basePath acc.2.1 bpat,
             (processChildren env (pbpMatching env children basePath acc.2.1 bpat)
                bblock basePath (blockTbsOf bdirs) acc.2.2).2) := by
          simp only [pbpStep]
          rw [if_pos hm]
        rw [hstepEq]
        dsimp only
        have hGFm : ∀ c ∈ pbpMatching env children basePath acc.2.1 bpat,
            c.isGroupI = false :=
          fun c hc => hGF c (List.mem_of_mem_filter hc)
        have hpc := (processChildren_count env
          (pbpMatching env children basePath acc.2.1 bpat) bblock basePath
          (blockTbsOf bdirs) acc.2.2 y hGFm).1
        have hsplit := pbp_matching_split env children basePath acc.2.1 bpat y
        rw [flattenG_append, List.count_append]
        omega
      · have hstepEq : pbpStep env children basePath acc (.pathBlock bpat bdirs bblock) =
            acc := by
          simp only [pbpStep]
          rw [if_neg hm]
        rw [hstepEq]
    | filePattern p ds => exact le_refl _
    | directiveS d => exact le_refl _
    | groupBlock g blk => exact le_refl _

theorem pbp_eq_count (env : Env) (children : List FSItem) (basePath : String)
    (hGF : ∀ c ∈ children, c.isGroupI = false) (hND : children.Nodup) (y : FSItem) :
    ∀ (pbs : List Statement) (acc : List FSItem × List FSItem × (Nat → FileState)),
    (∀ b ∈ pbs, isPathBlockS b = true) →
    (y ∉ acc.2.1 → y ∈ children →
      (match pbs.find? (fun b => matchesBlockB env basePath b y) with
       | some (.pathBlock _ _ blk) => hiddenFreeIn env blk basePath y
       | _ => True)) →
    (flattenG (pbs.foldl (pbpStep env children basePath) acc).1).count y +
      (children.filter
        (fun c => ¬ (pbs.foldl (pbpStep env children basePath) acc).2.1.contains c)).count y =
    (flattenG acc.1).count y +
      (children.filter (fun c => ¬ acc.2.1.contains c)).count y := by
  intro pbs
  induction pbs with
  | nil => intro acc _ _; rfl
  | cons b rest ih =>
    intro acc hAll hHF
    simp only [List.foldl_cons]
    cases b with
    | filePattern p ds =>
      exact absurd (hAll _ (List.mem_cons_self _ _)) (by simp [isPathBlockS])
    | directiveS d =>
      exact absurd (hAll _ (List.mem_cons_self _ _)) (by simp [isPathBlockS])
    | groupBlock g blk =>
      exact absurd (hAll _ (List.mem_cons_self _ _)) (by simp [isPathBlockS])
    | pathBlock bpat bdirs bblock =>
      have hAllr : ∀ b2 ∈ rest, isPathBlockS b2 = true :=
        fun b2 hb2 => hAll b2 (List.mem_cons_of_mem _ hb2)
      have hmemM : y ∈ pbpMatching env children basePath acc.2.1 bpat ↔
          (y ∈ children ∧ y ∉ acc.2.1 ∧
            matchBlockPattern env (createPattern bpat basePath)
              (pathJoin basePath y.name) = true) := by
        simp [pbpMatching, List.mem_filter, List.contains, List.elem_iff]
      have hsplit := pbp_matching_split env children basePath acc.2.1 bpat y
      by_cases hm : pbpMatching env children basePath acc.2.1 bpat ≠ []
      · have hstepEq : pbpStep env children basePath acc (.pathBlock bpat bdirs bblock) =
            (acc.1 ++ (processChildren env (pbpMatching env children basePath acc.2.1 bpat)
                bblock basePath (blockTbsOf bdirs) acc.2.2).1,
             acc.2.1 ++ pbpMatching env children basePath acc.2.1 bpat,
             (processChildren env (pbpMatching env children basePath acc.2.1 bpat)
                bblock basePath (blockTbsOf bdirs) acc.2.2).2) := by
          simp only [pbpStep]
          rw [if_pos hm]
        simp only [hstepEq]
        have hGFm : ∀ c ∈ pbpMatching env children basePath acc.2.1 bpat,
            c.isGroupI = false :=
          fun c hc => hGF c (List.mem_of_mem_filter hc)
        have hpcle := (processChildren_count env
          (pbpMatching env children basePath acc.2.1 bpat) bblock basePath
          (blockTbsOf bdirs) acc.2.2 y hGFm).1
        by_cases hyp : y ∈ acc.2.1
        · have hyM : y ∉ pbpMatching env children basePath acc.2.1 bpat :=
            fun hc => (hmemM.1 hc).2.1 hyp
          have hMc : (pbpMatching env children basePath acc.2.1 bpat).count y = 0 :=
            count_mem_zero_iff.2 hyM
          have hMle : (pbpMatching env children basePath acc.2.1 bpat).count y ≤
              children.count y := by omega
          have hstep := ih (acc.1 ++ (processChildren env
              (pbpMatching env children basePath acc.2.1 bpat) bblock basePath
              (blockTbsOf bdirs) acc.2.2).1,
            acc.2.1 ++ pbpMatching env children basePath acc.2.1 bpat,
            (processChildren env (pbpMatching env children basePath acc.2.1 bpat)
              bblock basePath (blockTbsOf bdirs) acc.2.2).2) hAllr
            (fun hc _ => absurd (List.mem_append_left _ hyp) hc)
          rw [hstep]
          dsimp only
          rw [flattenG_append, List.count_append]
          omega
        · by_cases hyc : y ∈ children
          · by_cases hmb : matchesBlockB env basePath (.pathBlock bpat bdirs bblock) y = true
            · have hyM : y ∈ pbpMatching env children basePath acc.2.1 bpat :=
                hmemM.2 ⟨hyc, hyp, by simpa [matchesBlockB, pbPattern] using hmb⟩
              have hHFblk : hiddenFreeIn env bblock basePath y := by
                have := hHF hyp hyc
                rwa [List.find?_cons_of_pos _ (by simpa using hmb)] at this
              have hNDm : (pbpMatching env children basePath acc.2.1 bpat).Nodup :=
                hND.filter _
              have hpceq := (processChildren_count env
                (pbpMatching env children basePath acc.2.1 bpat) bblock basePath
                (blockTbsOf bdirs) acc.2.2 y hGFm).2 hNDm hHFblk
              have hstep := ih (acc.1 ++ (processChildren env
                  (pbpMatching env children basePath acc.2.1 bpat) bblock basePath
                  (blockTbsOf bdirs) acc.2.2).1,
                acc.2.1 ++ pbpMatching env children basePath acc.2.1 bpat,
                (processChildren env (pbpMatching env children basePath acc.2.1 bpat)
                  bblock basePath (blockTbsOf bdirs) acc.2.2).2) hAllr
                (fun hc _ => absurd (List.mem_append_right _ hyM) hc)
              rw [hstep]
              dsimp only
              rw [flattenG_append, List.count_append]
              omega
            · have hyM : y ∉ pbpMatching env children basePath acc.2.1 bpat := by
                intro hc
                exact hmb (by simpa [matchesBlockB, pbPattern] using (hmemM.1 hc).2.2)
              have hMc : (pbpMatching env children basePath acc.2.1 bpat).count y = 0 :=
                count_mem_zero_iff.2 hyM
              have hHFr : y ∉ (acc.2.1 ++ pbpMatching env children basePath acc.2.1 bpat) →
                  y ∈ children →
                  (match rest.find? (fun b2 => matchesBlockB env basePath b2 y) with
                   | some (.pathBlock _ _ blk) => hiddenFreeIn env blk basePath y
                   | _ => True) := by
                intro _ _
                have := hHF hyp hyc
                rwa [List.find?_cons_of_neg _ (by simpa using hmb)] at this
              have hstep := ih (acc.1 ++ (processChildren env
                  (pbpMatching env children basePath acc.2.1 bpat) bblock basePath
                  (blockTbsOf bdirs) acc.2.2).1,
                acc.2.1 ++ pbpMatching env children basePath acc.2.1 bpat,
                (processChildren env (pbpMatching env children basePath acc.2.1 bpat)
                  bblock basePath (blockTbsOf bdirs) acc.2.2).2) hAllr hHFr
              rw [hstep]
              dsimp only
              rw [flattenG_append, List.count_append]
              omega
          · have hyM : y ∉ pbpMatching env children basePath acc.2.1 bpat :=
              fun hc => hyc (hmemM.1 hc).1
            have hMc : (pbpMatching env children basePath acc.2.1 bpat).count y = 0 :=
              count_mem_zero_iff.2 hyM
            have hstep := ih (acc.1 ++ (processChildren env
                (pbpMatching env children basePath acc.2.1 bpat) bblock basePath
                (blockTbsOf bdirs) acc.2.2).1,
              acc.2.1 ++ pbpMatching env children basePath acc.2.1 bpat,
              (processChildren env (pbpMatching env children basePath acc.2.1 bpat)
                bblock basePath (blockTbsOf bdirs) acc.2.2).2) hAllr
              (fun _ hc => absurd hc hyc)
            rw [hstep]
            dsimp only
            rw [flattenG_append, List.count_append]
            omega
      · have hstepEq : pbpStep env children basePath acc (.pathBlock bpat bdirs bblock) =
            acc := by
          simp only [pbpStep]
          rw [if_neg hm]
        simp only [hstepEq]
        refine ih acc hAllr ?_
        intro hyp hyc
        have hmb : matchesBlockB env basePath (.pathBlock bpat bdirs bblock) y = false := by
          by_contra hc
          have hc2 : matchesBlockB env basePath (.pathBlock bpat bdirs bblock) y = true := by
            simpa using hc
          exact hm (List.ne_nil_of_mem (hmemM.2 ⟨hyc, hyp,
            by simpa [matchesBlockB, pbPattern] using hc2⟩))
        have := hHF hyp hyc
        rwa [List.find?_cons_of_neg _ (by simp [hmb])] at this

theorem pbp_init_counts (children : List FSItem) (y : FSItem) :
    (flattenG ([] : List FSItem)).count y +
      (children.filter (fun c => ¬ ([] : List FSItem).contains c)).count y =
      children.count y := by
  simp [flattenG]

theorem pbp_orig (env : Env) (children : List FSItem) (basePath : String)
    (pbs : List Statement) (σ : Nat → FileState)
    (hGF : ∀ c ∈ children, c.isGroupI = false) :
    ∀ z ∈ flattenG (pathBlockPass env children basePath pbs σ).1, z ∈ children := by
  intro z hz
  rw [pathBlockPass_eq] at hz
  have hle := pbp_le env children basePath hGF z pbs ([], [], σ)
  rw [pbp_init_counts children z] at hle
  have h1 : (flattenG (pbs.foldl (pbpStep env children basePath) ([], [], σ)).1).count z ≠ 0 :=
    fun hc => (count_mem_zero_iff.1 hc) hz
  have h2 : children.count z ≠ 0 := by omega
  by_contra hcon
  exact h2 (count_mem_zero_iff.2 hcon)

theorem pbp_top_mem (env : Env) (children : List FSItem) (basePath : String) :
    ∀ (pbs : List Statement) (acc : List FSItem × List FSItem × (Nat → FileState)),
    (∀ z ∈ acc.1, z.isGroupI = false → z ∈ children) →
    ∀ z ∈ (pbs.foldl (pbpStep env children basePath) acc).1,
      z.isGroupI = false → z ∈ children := by
  intro pbs
  induction pbs with
  | nil => exact fun acc h => h
  | cons b rest ih =>
    intro acc hacc
    simp only [List.foldl_cons]
    cases b with
    | pathBlock bpat bdirs bblock =>
      by_cases hm : pbpMatching env children basePath acc.2.1 bpat ≠ []
      · have hstepEq : pbpStep env children basePath acc (.pathBlock bpat bdirs bblock) =
            (acc.1 ++ (processChildren env (pbpMatching env children basePath acc.2.1 bpat)
                bblock basePath (blockTbsOf bdirs) acc.2.2).1,
             acc.2.1 ++ pbpMatching env children basePath acc.2.1 bpat,
             (processChildren env (pbpMatching env children basePath acc.2.1 bpat)
                bblock basePath (blockTbsOf bdirs) acc.2.2).2) := by
          simp only [pbpStep]
          rw [if_pos hm]
        simp only [hstepEq]
        refine ih _ ?_
        intro z hz hng
        rcases List.mem_append.1 hz with hz | hz
        · exact hacc z hz hng
        · have := processChildren_top_mem env
            (pbpMatching env children basePath acc.2.1 bpat) bblock basePath
            (blockTbsOf bdirs) acc.2.2 z hz hng
          exact List.mem_of_mem_filter this
      · have hstepEq : pbpStep env children basePath acc (.pathBlock bpat bdirs bblock) =
            acc := by
          simp only [pbpStep]
          rw [if_neg hm]
        simp only [hstepEq]
        exact ih _ hacc
    | filePattern p ds => exact ih _ hacc
    | directiveS d => exact ih _ hacc
    | groupBlock g blk => exact ih _ hacc

theorem pbp_sigma (env : Env) (children : List FSItem) (basePath : String) :
    ∀ (pbs : List Statement) (acc : List FSItem × List FSItem × (Nat → FileState))
      (i : Nat), i ∉ fileIdsList children →
    (pbs.foldl (pbpStep env children basePath) acc).2.2 i = acc.2.2 i := by
  intro pbs
  induction pbs with
  | nil => exact fun acc i _ => rfl
  | cons b rest ih =>
    intro acc i hi
    simp only [List.foldl_cons]
    rw [ih _ i hi]
    cases b with
    | pathBlock bpat bdirs bblock =>
      by_cases hm : pbpMatching env children basePath acc.2.1 bpat ≠ []
      · have hstepEq : pbpStep env children basePath acc (.pathBlock bpat bdirs bblock) =
            (acc.1 ++ (processChildren env (pbpMatching env children basePath acc.2.1 bpat)
                bblock basePath (blockTbsOf bdirs) acc.2.2).1,
             acc.2.1 ++ pbpMatching env children basePath acc.2.1 bpat,
             (processChildren env (pbpMatching env children basePath acc.2.1 bpat)
                bblock basePath (blockTbsOf bdirs) acc.2.2).2) := by
          simp only [pbpStep]
          rw [if_pos hm]
        simp only [hstepEq]
        refine processChildren_sigma env _ _ _ _ _ i ?_
        intro hcon
        exact hi (fileIdsList_filter_subset _ children hcon)
      · have hstepEq : pbpStep env children basePath acc (.pathBlock bpat bdirs bblock) =
            acc := by
          simp only [pbpStep]
          rw [if_neg hm]
        simp only [hstepEq]
    | filePattern p ds => rfl
    | directiveS d => rfl
    | groupBlock g blk => rfl

theorem recurseLoop_sigma
    (pd : FSItem → List Statement → String → (Nat → FileState) → FSItem × (Nat → FileState))
    (stmts : List Statement) (bp : String) :
    ∀ (l : List FSItem) (σ : Nat → FileState) (i : Nat),
    (∀ z ∈ l, ∀ (st2 : List Statement) (bp2 : String) (σb : Nat → FileState),
      i ∉ fileIdsItem z → (pd z st2 bp2 σb).2 i = σb i) →
    i ∉ fileIdsList l → (recurseLoop pd stmts bp l σ).2 i = σ i := by
  intro l
  induction l with
  | nil => intro σ i _ _; rfl
  | cons item rest ih =>
    intro σ i Hpd hi
    have hi1 : i ∉ fileIdsItem item := by
      intro hc
      refine hi ?_
      show i ∈ fileIdsItem item ++ fileIdsList rest
      exact List.mem_append_left _ hc
    have hi2 : i ∉ fileIdsList rest := by
      intro hc
      refine hi ?_
      show i ∈ fileIdsItem item ++ fileIdsList rest
      exact List.mem_append_right _ hc
    have Hpdr : ∀ z ∈ rest, ∀ (st2 : List Statement) (bp2 : String)
        (σb : Nat → FileState), i ∉ fileIdsItem z → (pd z st2 bp2 σb).2 i = σb i :=
      fun z hz => Hpd z (List.mem_cons_of_mem item hz)
    cases item with
    | dir i2 n p cs =>
      simp only [recurseLoop]
      rw [ih _ i Hpdr hi2]
      exact Hpd _ (List.mem_cons_self _ _) _ _ _ hi1
    | file a b c =>
      simp only [recurseLoop]
      exact ih _ i Hpdr hi2
    | group g cs =>
      simp only [recurseLoop]
      exact ih _ i Hpdr hi2

theorem recurseLoop_keys
    (pd : FSItem → List Statement → String → (Nat → FileState) → FSItem × (Nat → FileState))
    (stmts : List Statement) (bp : String) :
    ∀ (l : List FSItem) (σ : Nat → FileState),
    (∀ z ∈ l, ∀ (i2 : Nat) (n p : String) (cs : List FSItem),
      z = FSItem.dir i2 n p cs →
      ∀ (st2 : List Statement) (bp2 : String) (σb : Nat → FileState),
      ∃ p2 cs2 σ2, pd z st2 bp2 σb = (.dir i2 n p2 cs2, σ2)) →
    ((flattenG (recurseLoop pd stmts bp l σ).1).map keyOf) = (flattenG l).map keyOf := by
  intro l
  induction l with
  | nil => intro σ _; rfl
  | cons item rest ih =>
    intro σ Hpd
    have Hpdr := fun z hz => Hpd z (List.mem_cons_of_mem item hz)
    cases item with
    | dir i2 n p cs =>
      obtain ⟨p2, cs2, σ2, he⟩ := Hpd _ (List.mem_cons_self _ _) i2 n p cs rfl
        (pbBlock (findMatchingPathBlock (pathJoin bp n) stmts)) (pathJoin bp n) σ
      simp only [recurseLoop, he]
      have h1 : flattenG (FSItem.dir i2 n p2 cs2 ::
          (recurseLoop pd stmts bp rest σ2).1) =
          FSItem.dir i2 n p2 cs2 :: flattenG (recurseLoop pd stmts bp rest σ2).1 := by
        simp [flattenG, expandG]
      have h2 : flattenG (FSItem.dir i2 n p cs :: rest) =
          FSItem.dir i2 n p cs :: flattenG rest := by
        simp [flattenG, expandG]
      rw [h1, h2]
      simp only [List.map_cons]
      rw [ih σ2 Hpdr]
      rfl
    | file a b c =>
      simp only [recurseLoop]
      have h1 : flattenG (FSItem.file a b c :: (recurseLoop pd stmts bp rest σ).1) =
          FSItem.file a b c :: flattenG (recurseLoop pd stmts bp rest σ).1 := by
        simp [flattenG, expandG]
      have h2 : flattenG (FSItem.file a b c :: rest) =
          FSItem.file a b c :: flattenG rest := by
        simp [flattenG, expandG]
      rw [h1, h2]
      simp only [List.map_cons]
      rw [ih σ Hpdr]
    | group g cs =>
      simp only [recurseLoop]
      have h1 : flattenG (FSItem.group g cs :: (recurseLoop pd stmts bp rest σ).1) =
          cs ++ flattenG (recurseLoop pd stmts bp rest σ).1 := by
        simp [flattenG, expandG]
      have h2 : flattenG (FSItem.group g cs :: rest) = cs ++ flattenG rest := by
        simp [flattenG, expandG]
      rw [h1, h2]
      simp only [List.map_append]
      rw [ih σ Hpdr]

theorem pdF_succ_eq (env : Env) (fuel : Nat) (did : Nat) (dn dp : String)
    (children : List FSItem) (stmts : List Statement) (bp : String)
    (σ : Nat → FileState) :
    processDirectoryF env (fuel + 1) (.dir did dn dp children) stmts bp σ =
      (.dir did dn ""
        (recurseLoop (fun d2 st2 bp2 σ2b => processDirectoryF env fuel d2 st2 bp2 σ2b)
          stmts bp (pdfOrderedChildren env children stmts bp σ)
          (pdfSigma2 env children stmts bp σ)).1,
       (recurseLoop (fun d2 st2 bp2 σ2b => processDirectoryF env fuel d2 st2 bp2 σ2b)
          stmts bp (pdfOrderedChildren env children stmts bp σ)
          (pdfSigma2 env children stmts bp σ)).2) := by
  rfl

theorem pdF_shape (env : Env) (fuel : Nat) (did : Nat) (dn dp : String)
    (cs : List FSItem) (stmts : List Statement) (bp : String) (σ : Nat → FileState) :
    ∃ p2 cs2 σ2,
      processDirectoryF env fuel (.dir did dn dp cs) stmts bp σ = (.dir did dn p2 cs2, σ2) := by
  cases fuel with
  | zero => exact ⟨dp, cs, σ, rfl⟩
  | succ fuel =>
    rw [pdF_succ_eq]
    exact ⟨"", _, _, rfl⟩

theorem pdF_file_eq (env : Env) (fuel : Nat) (a : Nat) (b c : String)
    (stmts : List Statement) (bp : String) (σ : Nat → FileState) :
    processDirectoryF env fuel (.file a b c) stmts bp σ = (.file a b c, σ) := by
  cases fuel <;> rfl

theorem pdF_group_eq (env : Env) (fuel : Nat) (g : String) (cs : List FSItem)
    (stmts : List Statement) (bp : String) (σ : Nat → FileState) :
    processDirectoryF env fuel (.group g cs) stmts bp σ = (.group g cs, σ) := by
  cases fuel <;> rfl

theorem pdF_sigma (env : Env) :
    ∀ (fuel : Nat) (d : FSItem) (stmts : List Statement) (bp : String)
      (σ : Nat → FileState) (i : Nat),
    groupFreeItem d = true → i ∉ fileIdsItem d →
    (processDirectoryF env fuel d stmts bp σ).2 i = σ i := by
  intro fuel
  induction fuel with
  | zero => intro d stmts bp σ i _ _; rfl
  | succ fuel ih =>
    intro d stmts bp σ i hgf hi
    cases d with
    | file a b c => rfl
    | group g cs => rfl
    | dir did dn dp cs =>
      rw [pdF_succ_eq]
      have hGF : ∀ c ∈ cs, c.isGroupI = false := fun c hc =>
        groupFreeItem_not_group
          (groupFreeList_mem (by simpa [groupFreeItem] using hgf) c hc)
      have hi2 : i ∉ fileIdsList cs := by simpa [fileIdsItem] using hi
      have hs1 : (pathBlockPass env cs bp (stmts.filter isPathBlockS) σ).2.2 i = σ i := by
        rw [pathBlockPass_eq]
        exact pbp_sigma env cs bp (stmts.filter isPathBlockS) ([], [], σ) i hi2
      have hs2 : pdfSigma2 env cs stmts bp σ i = σ i := by
        rw [pdfSigma2]
        rw [processChildren_sigma env _ _ _ _ _ i
          (fun hc => hi2 (fileIdsList_filter_subset _ cs hc))]
        exact hs1
      have horig : ∀ z ∈ flattenG (pdfOrderedChildren env cs stmts bp σ), z ∈ cs := by
        intro z hz
        rw [pdfOrderedChildren, flattenG_append] at hz
        rcases List.mem_append.1 hz with hz | hz
        · exact pbp_orig env cs bp (stmts.filter isPathBlockS) σ hGF z hz
        · have := processChildren_orig env _ _ bp none _
            (fun c hc => hGF c (List.mem_of_mem_filter hc)) z hz
          exact List.mem_of_mem_filter this
      have htop : ∀ z ∈ pdfOrderedChildren env cs stmts bp σ,
          z.isGroupI = false → z ∈ cs := by
        intro z hz hng
        rw [pdfOrderedChildren] at hz
        rcases List.mem_append.1 hz with hz | hz
        · rw [pathBlockPass_eq] at hz
          exact pbp_top_mem env cs bp (stmts.filter isPathBlockS) ([], [], σ)
            (by simp) z hz hng
        · have := processChildren_top_mem env _ _ bp none _ z hz hng
          exact List.mem_of_mem_filter this
      have hioc : i ∉ fileIdsList (pdfOrderedChildren env cs stmts bp σ) := by
        intro hc
        rw [← fileIds_flattenG] at hc
        obtain ⟨w, hw, hiw⟩ := fileIds_decomp hc
        exact hi2 (mem_fileIdsList_of_mem (horig w hw) hiw)
      have hs3 := recurseLoop_sigma
        (fun d2 st2 bp2 σ2b => processDirectoryF env fuel d2 st2 bp2 σ2b) stmts bp
        (pdfOrderedChildren env cs stmts bp σ) (pdfSigma2 env cs stmts bp σ) i
        ?_ hioc
      · rw [hs3]
        exact hs2
      · intro z hz st2 bp2 σb hiz
        cases z with
        | file a b c =>
          dsimp only
          rw [pdF_file_eq]
        | group g cs2 =>
          dsimp only
          rw [pdF_group_eq]
        | dir i2 n p cs2 =>
          have hzc : FSItem.dir i2 n p cs2 ∈ cs := htop _ hz (by rfl)
          have hgf2 : groupFreeItem (FSItem.dir i2 n p cs2) = true :=
            groupFreeList_mem (by simpa [groupFreeItem] using hgf) _ hzc
          exact ih _ st2 bp2 σb i hgf2 hiz

theorem key_inj_of_nodup {children : List FSItem}
    (hK : (children.map keyOf).Nodup) :
    ∀ y ∈ children, ∀ z ∈ children, keyOf y = keyOf z → y = z := by
  induction children with
  | nil => intro y hy; cases hy
  | cons c cs ih =>
    intro y hy z hz hk
    simp only [List.map_cons, List.nodup_cons] at hK
    rcases List.mem_cons.1 hy with rfl | hy2
    · rcases List.mem_cons.1 hz with rfl | hz2
      · rfl
      · exact absurd (hk ▸ List.mem_map_of_mem keyOf hz2) hK.1
    · rcases List.mem_cons.1 hz with rfl | hz2
      · exact absurd (hk ▸ List.mem_map_of_mem keyOf hy2) hK.1
      · exact ih hK.2 y hy2 z hz2 hk

theorem count_key_eq {children L : List FSItem} {y : FSItem}
    (hK : (children.map keyOf).Nodup) (hsub : ∀ z ∈ L, z ∈ children)
    (hy : y ∈ children) :
    (L.map keyOf).count (keyOf y) = L.count y := by
  induction L with
  | nil => rfl
  | cons z zs ih =>
    have hsub2 : ∀ w ∈ zs, w ∈ children := fun w hw => hsub w (List.mem_cons_of_mem z hw)
    simp only [List.map_cons, List.count_cons]
    rw [ih hsub2]
    congr 1
    by_cases hzy : z = y
    · subst hzy
      simp
    · have hkne : keyOf z ≠ keyOf y := fun hc =>
        hzy (key_inj_of_nodup hK z (hsub z (List.mem_cons_self z zs)) y hy hc)
      simp [hzy, hkne]

theorem orderFiles_dir_eq (env : Env) (ast : OrderFile) (did : Nat) (dn dp : String)
    (children : List FSItem) (σ : Nat → FileState) :
    orderFiles env ast (.dir did dn dp children) σ =
      (.dir did dn ""
        (recurseLoop (fun d2 st2 bp2 σ2b =>
            processDirectoryF env (sizeList children) d2 st2 bp2 σ2b)
          ast "" (pdfOrderedChildren env children ast "" σ)
          (pdfSigma2 env children ast "" σ)).1,
       (recurseLoop (fun d2 st2 bp2 σ2b =>
            processDirectoryF env (sizeList children) d2 st2 bp2 σ2b)
          ast "" (pdfOrderedChildren env children ast "" σ)
          (pdfSigma2 env children ast "" σ)).2) := by
  have hf : itemSize (FSItem.dir did dn dp children) = sizeList children + 1 := by
    show 1 + sizeList children = sizeList children + 1
    omega
  show processDirectoryF env (itemSize (FSItem.dir did dn dp children))
    (FSItem.dir did dn dp children) ast "" σ = _
  rw [hf, pdF_succ_eq]

theorem pdfOC_orig (env : Env) (children : List FSItem) (stmts : List Statement)
    (bp : String) (σ : Nat → FileState)
    (hGF : ∀ c ∈ children, c.isGroupI = false) :
    ∀ z ∈ flattenG (pdfOrderedChildren env children stmts bp σ), z ∈ children := by
  intro z hz
  rw [pdfOrderedChildren, flattenG_append] at hz
  rcases List.mem_append.1 hz with hz | hz
  · exact pbp_orig env children bp (stmts.filter isPathBlockS) σ hGF z hz
  · have := processChildren_orig env _ _ bp none _
      (fun c hc => hGF c (List.mem_of_mem_filter hc)) z hz
    exact List.mem_of_mem_filter this

theorem pdfOC_count (env : Env) (children : List FSItem) (stmts : List Statement)
    (bp : String) (σ : Nat → FileState) (y : FSItem)
    (hGF : ∀ c ∈ children, c.isGroupI = false) (hND : children.Nodup)
    (hy : y ∈ children)
    (hHF : hiddenFreeIn env (scopeStmtsFor env stmts bp y) bp y) :
    (flattenG (pdfOrderedChildren env children stmts bp σ)).count y =
      children.count y := by
  have hAll : ∀ b ∈ stmts.filter isPathBlockS, isPathBlockS b = true :=
    fun b hb => List.of_mem_filter hb
  rcases hfind : (stmts.filter isPathBlockS).find? (fun b => matchesBlockB env bp b y)
    with _ | b
  · -- no path block matches: the child is handled by the non-block statements
    have hfind2 : (stmts.filter isPathBlockS).find?
        (fun b => matchBlockPattern env (createPattern (pbPattern b) bp)
          (pathJoin bp y.name)) = none := hfind
    have hscope : scopeStmtsFor env stmts bp y =
        stmts.filter (fun s => ¬ isPathBlockS s) := by
      simp only [scopeStmtsFor, hfind2]
    have hnp : y ∉ (pathBlockPass env children bp (stmts.filter isPathBlockS) σ).2.1 := by
      rw [pathBlockPass_eq]
      intro hc
      rcases pbp_claimed_match env children bp (stmts.filter isPathBlockS)
        ([], [], σ) y hc with hc2 | ⟨b2, hb2, hmb2⟩
      · exact absurd hc2 (by simp)
      · have := List.find?_eq_none.1 hfind b2 hb2
        simp [hmb2] at this
    have heq := pbp_eq_count env children bp hGF hND y (stmts.filter isPathBlockS)
      ([], [], σ) hAll (fun _ _ => by rw [hfind]; trivial)
    rw [pbp_init_counts children y] at heq
    have hRC : (children.filter (fun c =>
        ¬ (pathBlockPass env children bp (stmts.filter isPathBlockS) σ).2.1.contains c)).count y =
        children.count y := by
      rw [count_filter_eq, if_pos]
      simp [List.contains, List.elem_iff, hnp]
    have hflat0 : (flattenG (pathBlockPass env children bp
        (stmts.filter isPathBlockS) σ).1).count y = 0 := by
      rw [pathBlockPass_eq]
      have hRC2 : (children.filter (fun c =>
          ¬ ((stmts.filter isPathBlockS).foldl (pbpStep env children bp)
            ([], [], σ)).2.1.contains c)).count y = children.count y := by
        rw [← pathBlockPass_eq]
        exact hRC
      omega
    have hHF2 : ∀ r ∈ (processStatements (stmts.filter (fun s => ¬ isPathBlockS s)) bp).rules,
        r.isHidden = true → matchesRule env r y = false := by
      rw [hscope] at hHF
      exact hHF
    have hpc := (processChildren_count env
      (children.filter (fun c =>
        ¬ (pathBlockPass env children bp (stmts.filter isPathBlockS) σ).2.1.contains c))
      (stmts.filter (fun s => ¬ isPathBlockS s)) bp none
      (pathBlockPass env children bp (stmts.filter isPathBlockS) σ).2.2 y
      (fun c hc => hGF c (List.mem_of_mem_filter hc))).2 (hND.filter _) hHF2
    rw [pdfOrderedChildren, flattenG_append, List.count_append, hflat0, hpc, hRC]
    omega
  · -- a path block claims the child
    have hbm := List.mem_of_find?_eq_some hfind
    have hbp := hAll b hbm
    cases b with
    | filePattern p ds => exact absurd hbp (by simp [isPathBlockS])
    | directiveS d => exact absurd hbp (by simp [isPathBlockS])
    | groupBlock g blk => exact absurd hbp (by simp [isPathBlockS])
    | pathBlock bpat bdirs bblock =>
      have hfind2 : (stmts.filter isPathBlockS).find?
          (fun b2 => matchBlockPattern env (createPattern (pbPattern b2) bp)
            (pathJoin bp y.name)) = some (.pathBlock bpat bdirs bblock) := hfind
      have hscope : scopeStmtsFor env stmts bp y = bblock := by
        simp only [scopeStmtsFor, hfind2]
      have hHFb : hiddenFreeIn env bblock bp y := by
        rw [hscope] at hHF
        exact hHF
      have hyp : y ∈ (pathBlockPass env children bp (stmts.filter isPathBlockS) σ).2.1 := by
        rw [pathBlockPass_eq]
        refine pbp_covers env children bp (stmts.filter isPathBlockS) ([], [], σ) y hy
          hAll (Or.inr ?_)
        rw [hfind]
        rfl
      have heq := pbp_eq_count env children bp hGF hND y (stmts.filter isPathBlockS)
        ([], [], σ) hAll (fun _ _ => by rw [hfind]; exact hHFb)
      rw [pbp_init_counts children y] at heq
      have hRC : (children.filter (fun c =>
          ¬ (pathBlockPass env children bp (stmts.filter isPathBlockS) σ).2.1.contains c)).count y =
          0 := by
        rw [count_filter_eq, if_neg]
        simp [List.contains, List.elem_iff, hyp]
      have hflatC : (flattenG (pathBlockPass env children bp
          (stmts.filter isPathBlockS) σ).1).count y = children.count y := by
        rw [pathBlockPass_eq]
        have hRC2 : (children.filter (fun c =>
            ¬ ((stmts.filter isPathBlockS).foldl (pbpStep env children bp)
              ([], [], σ)).2.1.contains c)).count y = 0 := by
          rw [← pathBlockPass_eq]
          exact hRC
        omega
      have hpcle := (processChildren_count env
        (children.filter (fun c =>
          ¬ (pathBlockPass env children bp (stmts.filter isPathBlockS) σ).2.1.contains c))
        (stmts.filter (fun s => ¬ isPathBlockS s)) bp none
        (pathBlockPass env children bp (stmts.filter isPathBlockS) σ).2.2 y
        (fun c hc => hGF c (List.mem_of_mem_filter hc))).1
      rw [pdfOrderedChildren, flattenG_append, List.count_append, hflatC]
      omega

/-- C10: conservation invariant at the root directory level.  For a real
snapshot (no `Group` nodes, children with pairwise distinct identity keys),
every child not matched by any `hidden` rule of its governing scope (the
first matching path block, or the non-block statements) occurs exactly once
in the produced listing, counting both top-level occurrences and synthetic
group members; and everything in the produced listing (after expanding the
synthetic groups one level) descends from an input child, groups being the
only nodes the engine introduces. -/
theorem C10_conservation (env : Env) (ast : OrderFile) (did : Nat) (dn dp : String)
    (children : List FSItem) (σ : Nat → FileState) (y : FSItem)
    (hGF : ∀ c ∈ children, c.isGroupI = false)
    (hK : (children.map keyOf).Nodup)
    (hy : y ∈ children)
    (hHF : hiddenFreeIn env (scopeStmtsFor env ast "" y) "" y) :
    (((flattenG (dirChildren (orderFiles env ast (.dir did dn dp children) σ).1)).map
        keyOf).count (keyOf y) = 1) ∧
    (∀ z ∈ flattenG (dirChildren (orderFiles env ast (.dir did dn dp children) σ).1),
      ∃ c ∈ children, keyOf z = keyOf c) := by
  have hND : children.Nodup := hK.of_map
  rw [orderFiles_dir_eq]
  simp only [dirChildren]
  have Hpd : ∀ z ∈ pdfOrderedChildren env children ast "" σ,
      ∀ (i2 : Nat) (n p : String) (cs : List FSItem), z = FSItem.dir i2 n p cs →
      ∀ (st2 : List Statement) (bp2 : String) (σb : Nat → FileState),
      ∃ p2 cs2 σ2, (fun d2 st2 bp2 σ2b =>
          processDirectoryF env (sizeList children) d2 st2 bp2 σ2b) z st2 bp2 σb =
        (.dir i2 n p2 cs2, σ2) := by
    intro z hz i2 n p cs hzeq st2 bp2 σb
    subst hzeq
    exact pdF_shape env (sizeList children) i2 n p cs st2 bp2 σb
  have hkeys := recurseLoop_keys
    (fun d2 st2 bp2 σ2b => processDirectoryF env (sizeList children) d2 st2 bp2 σ2b)
    ast "" (pdfOrderedChildren env children ast "" σ)
    (pdfSigma2 env children ast "" σ) Hpd
  have horig := pdfOC_orig env children ast "" σ hGF
  constructor
  · rw [hkeys, count_key_eq hK horig hy,
      pdfOC_count env children ast "" σ y hGF hND hy hHF]
    have h1 := List.nodup_iff_count_le_one.1 hND y
    have h2 : children.count y ≠ 0 := fun hc => (count_mem_zero_iff.1 hc) hy
    omega
  · intro z hz
    have hkz : keyOf z ∈ (flattenG (pdfOrderedChildren env children ast "" σ)).map keyOf := by
      rw [← hkeys]
      exact List.mem_map_of_mem keyOf hz
    obtain ⟨w, hw, hkw⟩ := List.mem_map.1 hkz
    exact ⟨w, horig w hw, hkw.symm⟩

/-- Closed instance of the C10 conservation theorem on a concrete snapshot. -/
theorem C10_witness :
    (((flattenG (dirChildren (orderFiles envTriv []
        (.dir 0 "r" "/r" [.file 1 "a.txt" "/r/a.txt"]) sigNormal).1)).map
        keyOf).count (keyOf (.file 1 "a.txt" "/r/a.txt")) = 1) ∧
    (∀ z ∈ flattenG (dirChildren (orderFiles envTriv []
        (.dir 0 "r" "/r" [.file 1 "a.txt" "/r/a.txt"]) sigNormal).1),
      ∃ c ∈ [FSItem.file 1 "a.txt" "/r/a.txt"], keyOf z = keyOf c) :=
  C10_conservation envTriv [] 0 "r" "/r" [.file 1 "a.txt" "/r/a.txt"] sigNormal
    (.file 1 "a.txt" "/r/a.txt") (by decide) (by decide) (by decide)
    (by intro r hr; cases hr)

/-- C9 (amended): the ordering pass is not pure on file states — the
counterexample shows a state write — but its writes are confined to the
snapshot: the store is untouched at every id that does not occur in the
input tree. -/
theorem C9_amended (env : Env) (ast : OrderFile) (d : FSItem) (σ : Nat → FileState)
    (i : Nat) (hgf : groupFreeItem d = true) (hi : i ∉ fileIdsItem d) :
    (orderFiles env ast d σ).2 i = σ i :=
  pdF_sigma env (itemSize d) d ast "" σ i hgf hi

/-- Closed instance of the C9 frame theorem. -/
theorem C9_amended_witness :
    (orderFiles envTriv [] (FSItem.file 0 "a" "/a") sigNormal).2 7 = sigNormal 7 :=
  C9_amended envTriv [] (FSItem.file 0 "a" "/a") sigNormal 7 (by decide) (by decide)

/-- C3 (amended): a matched file is excluded by `hidden` only when the first
rule of the scope that matches it carries `hidden` — then it appears neither
in the rule-ordered output (top level or inside a group) nor among the
leftovers.  An earlier claim on the same file (an explicit literal
statement, as in the counterexample, or an earlier matching rule) preempts
the hidden rule, because each rule only sees still-unprocessed items.  On
the spec example `*.log @hidden` with children {app.log, index.js} the
produced listing is exactly [index.js]. -/
theorem C3_amended (env : Env) (children : List FSItem) (rules : List Rule)
    (tbs tOrd : List String) (σ : Nat → FileState) (x : FSItem) (rh : Rule)
    (hGF : ∀ c ∈ children, c.isGroupI = false)
    (hx : x ∈ children)
    (hf : rules.find? (fun r => matchesRule env r x) = some rh)
    (hh : rh.isHidden = true) :
    (x ∉ flattenG (applyRulesToChildren env children rules tbs tOrd σ).1 ∧
      x ∉ (applyRulesToChildren env children rules tbs tOrd σ).2.1) ∧
    (orderFiles envTriv [.filePattern "*.log" [.mk "hidden" []]]
        (.dir 0 "r" "/r" [.file 1 "app.log" "/r/app.log",
          .file 2 "index.js" "/r/index.js"]) sigNormal).1 =
      .dir 0 "r" "" [.file 2 "index.js" "/r/index.js"] := by
  obtain ⟨hp, hq⟩ := runRules_hidden_notPlaced env children x hx rules ⟨[], [], [], σ⟩ rh
    (by simp) (by simp [placedOf]) hf hh
  refine ⟨⟨?_, ?_⟩, by decide⟩
  · intro hc
    exact hq ((AR_flat_perm env children rules tbs tOrd σ hGF).mem_iff.1 hc)
  · intro hc
    rw [AR_eq] at hc
    have h2 := (List.mem_filter.1 hc).2
    simp only [decide_eq_true_eq, List.contains, List.elem_iff] at h2
    exact h2 hp

/-- Closed instance of the C3 exclusion theorem on the spec example. -/
theorem C3_amended_witness :
    ((FSItem.file 1 "app.log" "/r/app.log") ∉
        flattenG (applyRulesToChildren envTriv
          [.file 1 "app.log" "/r/app.log", .file 2 "index.js" "/r/index.js"]
          (processStatements [.filePattern "*.log" [.mk "hidden" []]] "").rules
          ["alphabetical"] [] sigNormal).1 ∧
      (FSItem.file 1 "app.log" "/r/app.log") ∉
        (applyRulesToChildren envTriv
          [.file 1 "app.log" "/r/app.log", .file 2 "index.js" "/r/index.js"]
          (processStatements [.filePattern "*.log" [.mk "hidden" []]] "").rules
          ["alphabetical"] [] sigNormal).2.1) ∧
    (orderFiles envTriv [.filePattern "*.log" [.mk "hidden" []]]
        (.dir 0 "r" "/r" [.file 1 "app.log" "/r/app.log",
          .file 2 "index.js" "/r/index.js"]) sigNormal).1 =
      .dir 0 "r" "" [.file 2 "index.js" "/r/index.js"] :=
  C3_amended envTriv
    [.file 1 "app.log" "/r/app.log", .file 2 "index.js" "/r/index.js"]
    (processStatements [.filePattern "*.log" [.mk "hidden" []]] "").rules
    ["alphabetical"] [] sigNormal (.file 1 "app.log" "/r/app.log")
    (compileRule "" "*.log" [.mk "hidden" []])
    (by decide) (by decide) rfl (by decide)

/-- C4: `disallow_if` is evaluated before `allow_if` — whenever its regex
matches the file name the assigned state is `Disallowed`, regardless of any
`allow_if` on the same rule; a matched file is never removed unless some
rule carries `hidden` (it stays in the rule output or the leftovers); and on
the spec example `*.js @disallow_if(/component/)` both files stay in the
output, component.js with state Disallowed and another.js with state
Normal. -/
theorem C4_disallow_first :
    (∀ (env : Env) (r : Rule) (nm re : String), r.disallowIf = some re →
      env.regexTest re nm = true → ruleAssignState env r nm = .Disallowed) ∧
    (∀ (env : Env) (children : List FSItem) (rules : List Rule)
       (tbs tOrd : List String) (σ : Nat → FileState) (x : FSItem),
      (∀ r ∈ rules, r.isHidden = false) → (∀ c ∈ children, c.isGroupI = false) →
      x ∈ children →
      (x ∈ flattenG (applyRulesToChildren env children rules tbs tOrd σ).1 ∨
        x ∈ (applyRulesToChildren env children rules tbs tOrd σ).2.1)) ∧
    ((orderFiles envComponent c9ast (.dir 0 "r" "/r" [c9comp, c9anot]) sigNormal).1 =
      .dir 0 "r" "" [c9anot, c9comp]) ∧
    ((orderFiles envComponent c9ast
        (.dir 0 "r" "/r" [c9comp, c9anot]) sigNormal).2 1 = .Disallowed) ∧
    ((orderFiles envComponent c9ast
        (.dir 0 "r" "/r" [c9comp, c9anot]) sigNormal).2 2 = .Normal) := by
  refine ⟨?_, ?_, by decide, by decide, by decide⟩
  · intro env r nm re hd ht
    unfold ruleAssignState
    rw [hd, if_pos ht]
  · intro env children rules tbs tOrd σ x hNH hGF hx
    have hHF : ∀ r ∈ rules, r.isHidden = true → matchesRule env r x = false := by
      intro r hr hh
      rw [hNH r hr] at hh
      cases hh
    have heq := (AR_conserv env children rules tbs tOrd σ x hGF).2 hHF
    have hxc : children.count x ≠ 0 := fun hc => (count_mem_zero_iff.1 hc) hx
    by_cases h1 : x ∈ flattenG (applyRulesToChildren env children rules tbs tOrd σ).1
    · exact Or.inl h1
    · refine Or.inr ?_
      have hc1 : (flattenG (applyRulesToChildren env children rules tbs tOrd σ).1).count x = 0 :=
        count_mem_zero_iff.2 h1
      have hc2 : ((applyRulesToChildren env children rules tbs tOrd σ).2.1).count x ≠ 0 := by
        omega
      by_contra hcon
      exact hc2 (count_mem_zero_iff.2 hcon)

/-- Closed instance of the disallow-first state assignment. -/
theorem C4_witness :
    ruleAssignState envComponent
      { pattern := RulePattern.glob "*.js", directives := [],
        allowIf := some "component", disallowIf := some "component" }
      "component.js" = .Disallowed :=
  C4_disallow_first.1 envComponent
    { pattern := RulePattern.glob "*.js", directives := [],
      allowIf := some "component", disallowIf := some "component" }
    "component.js" "component" rfl (by decide)

/-- C5 (amended): a `group_by` rule buckets a matched file under its derived
key only when that key is a non-empty string; the file state is written
either way, but with an empty key (no regex match, or an empty capture) the
JS falsy test skips the whole placement: the file is not processed, forms no
bucket of its own, and falls through to later rules or the leftovers.  On
the example `*.js @group_by(/(component)/)` with children {component.js,
another.js}, the output is [Group "component" [component.js], another.js] —
another.js stays ungrouped. -/
theorem C5_amended (env : Env) (r : Rule) (st : RuleState) (it : FSItem)
    (gb : GroupByVal) (hh : r.isHidden = false)
    (hg : truthyStr r.groupName = none)
    (hgb : truthyGroupBy r.groupBy = some gb) :
    ((getGroupKey env it gb ≠ "" →
      ruleFileStep env r st it =
        { st with sigma := stepSigma env r st.sigma it,
                  groups := pushGroup st.groups (getGroupKey env it gb) it,
                  processed := st.processed ++ [it] }) ∧
     (getGroupKey env it gb = "" →
      ruleFileStep env r st it = { st with sigma := stepSigma env r st.sigma it })) ∧
    (orderFiles envCapComponent c5ast
        (.dir 0 "r" "/r" [.file 1 "component.js" "/r/component.js",
          .file 2 "another.js" "/r/another.js"]) sigNormal).1 =
      .dir 0 "r" ""
        [.group "component" [.file 1 "component.js" "/r/component.js"],
         .file 2 "another.js" "/r/another.js"] := by
  refine ⟨⟨?_, ?_⟩, by decide⟩
  · intro hk
    unfold ruleFileStep
    rw [if_neg (by rw [hh]; simp), hg, hgb]
    dsimp only
    rw [if_pos hk]
  · intro hk
    unfold ruleFileStep
    rw [if_neg (by rw [hh]; simp), hg, hgb]
    dsimp only
    rw [if_neg (by simp [hk])]

/-- Closed instance of the C5 bucketing dichotomy on the example rule. -/
theorem C5_amended_witness :
    ((getGroupKey envCapComponent (FSItem.file 2 "another.js" "/r/another.js")
        (.regex "(component)") ≠ "" →
      ruleFileStep envCapComponent (compileRule "" "*.js" [.mk "group_by" [.str "/(component)/"]])
        ⟨[], [], [], sigNormal⟩ (.file 2 "another.js" "/r/another.js") =
        ⟨[], pushGroup []
            (getGroupKey envCapComponent (.file 2 "another.js" "/r/another.js")
              (.regex "(component)"))
            (.file 2 "another.js" "/r/another.js"),
          [] ++ [.file 2 "another.js" "/r/another.js"],
          stepSigma envCapComponent
            (compileRule "" "*.js" [.mk "group_by" [.str "/(component)/"]]) sigNormal
            (.file 2 "another.js" "/r/another.js")⟩) ∧
     (getGroupKey envCapComponent (FSItem.file 2 "another.js" "/r/another.js")
        (.regex "(component)") = "" →
      ruleFileStep envCapComponent (compileRule "" "*.js" [.mk "group_by" [.str "/(component)/"]])
        ⟨[], [], [], sigNormal⟩ (.file 2 "another.js" "/r/another.js") =
        ⟨[], [], [],
          stepSigma envCapComponent
            (compileRule "" "*.js" [.mk "group_by" [.str "/(component)/"]]) sigNormal
            (.file 2 "another.js" "/r/another.js")⟩)) ∧
    (orderFiles envCapComponent c5ast
        (.dir 0 "r" "/r" [.file 1 "component.js" "/r/component.js",
          .file 2 "another.js" "/r/another.js"]) sigNormal).1 =
      .dir 0 "r" ""
        [.group "component" [.file 1 "component.js" "/r/component.js"],
         .file 2 "another.js" "/r/another.js"] :=
  C5_amended envCapComponent (compileRule "" "*.js" [.mk "group_by" [.str "/(component)/"]])
    ⟨[], [], [], sigNormal⟩ (.file 2 "another.js" "/r/another.js") (.regex "(component)")
    (by decide) rfl rfl

theorem itemSize_pos (c : FSItem) : 1 ≤ itemSize c := by
  cases c <;> simp [itemSize]

theorem sizeList_pos (l : List FSItem) : 1 ≤ sizeList l := by
  cases l with
  | nil => exact le_refl 1
  | cons c cs =>
    have := itemSize_pos c
    show 1 ≤ itemSize c + sizeList cs
    omega

theorem searchList_eq_any :
    ∀ (n : Nat) (pattern : String) (l : List FSItem), sizeList l ≤ n →
    searchList pattern l =
      (treeFilesList l).any (fun f => minimatch (pathRelRoot f.pathOf) pattern) := by
  intro n
  induction n with
  | zero =>
    intro pattern l h
    exact absurd (le_trans (sizeList_pos l) h) (by omega)
  | succ n ih =>
    intro pattern l h
    cases l with
    | nil => rfl
    | cons c cs =>
      have hsz : itemSize c + sizeList cs ≤ n + 1 := h
      have hcs : sizeList cs ≤ n := by
        have := itemSize_pos c
        omega
      have h1 : searchList pattern (c :: cs) =
          (searchItem pattern c || searchList pattern cs) := rfl
      have h2 : treeFilesList (c :: cs) = treeFilesItem c ++ treeFilesList cs := rfl
      rw [h1, h2, List.any_append, ih pattern cs hcs]
      congr 1
      cases c with
      | file a b p =>
        simp [searchItem, treeFilesItem, FSItem.pathOf]
      | dir a b p cs2 =>
        have hcs2 : sizeList cs2 ≤ n := by
          have h3 : itemSize (FSItem.dir a b p cs2) = 1 + sizeList cs2 := rfl
          have := sizeList_pos cs
          omega
        show searchList pattern cs2 = _
        rw [ih pattern cs2 hcs2]
        rfl
      | group g cs2 =>
        simp [searchItem, treeFilesItem]

/-- C7 (amended): the required-files search inspects only `File` nodes — a
pattern satisfied solely by a Directory (as in the counterexample) or a
Group is still reported missing.  `validateRequiredFiles` returns exactly
the `required`-tagged patterns (collected from the whole AST, across path
and group blocks) that match no File anywhere in the snapshot tree, the
match being a basename-aware glob against the root-relative file path. -/
theorem C7_amended :
    (∀ (pattern : String) (l : List FSItem),
      searchList pattern l =
        (treeFilesList l).any (fun f => minimatch (pathRelRoot f.pathOf) pattern)) ∧
    (∀ (ast : OrderFile) (did : Nat) (dn dp : String) (cs : List FSItem),
      validateRequiredFiles ast (.dir did dn dp cs) =
        (reqOfList ast).filter (fun p =>
          ¬ (treeFilesList cs).any (fun f => minimatch (pathRelRoot f.pathOf) p))) := by
  have hS : ∀ (pattern : String) (l : List FSItem),
      searchList pattern l =
        (treeFilesList l).any (fun f => minimatch (pathRelRoot f.pathOf) pattern) :=
    fun pattern l => searchList_eq_any (sizeList l) pattern l (le_refl _)
  refine ⟨hS, ?_⟩
  intro ast did dn dp cs
  show (reqOfList ast).filter (fun p => ¬ searchList p cs) = _
  refine List.filter_congr ?_
  intro p _
  rw [hS p cs]

end SortScript
